import Mathlib

/-!
Shallow embedding of the `anki-mcp-server` request handlers (`src/index.ts`).

JS strings are modelled as `List Char` (wrapped back into `String` at the
interface).  The regex replacements of `cleanWithRegex` are modelled by fueled
scanners implementing the exact leftmost-match / continue-after-the-match
semantics of `String.prototype.replace` with a global regex; the fuel is the
length of the input, which is always sufficient because every step consumes at
least one character.  Store interaction is modelled by a `StoreClient` record
of response functions, and every handler additionally returns the list of
store calls it performed, in order, so that "no store call is made" is a
provable statement.
-/

/-- Split a list at the first occurrence of the character `c`:
returns the (c-free) part before it and the part after it. -/
def splitAtChar (c : Char) : List Char → Option (List Char × List Char)
  | [] => none
  | x :: xs =>
    if x = c then some ([], xs)
    else (splitAtChar c xs).map (fun p => (x :: p.1, p.2))

/-- Case-insensitive character match (`/i` flag) against a pattern character
drawn from a lowercase-ASCII regex literal: the input matches if it is the
pattern character itself or its uppercase counterpart. -/
def ciHead (p c : Char) : Bool := p == c || (p.isLower && (c.toNat == p.toNat - 32))

/-- Case-insensitive "starts with" for a lowercase-ASCII pattern. -/
def ciStarts : List Char → List Char → Bool
  | [], _ => true
  | _ :: _, [] => false
  | p :: ps, c :: cs => ciHead p c && ciStarts ps cs

/-- Drop everything up to and including the first (case-insensitive)
occurrence of `pat`; `none` if there is no occurrence. -/
def dropThroughCI (pat : List Char) : List Char → Option (List Char)
  | [] => none
  | x :: xs =>
    if ciStarts pat (x :: xs) then some ((x :: xs).drop pat.length)
    else dropThroughCI pat xs

def stylePat : List Char := "style".data

def styleClosePat : List Char := "</style>".data

/-- `.replace(/<style[^>]*>[\s\S]*?<\/style>/gi, "")`: at a `<` followed
case-insensitively by `style`, the opener runs to the first `>` (forced, since
`[^>]*` cannot cross a `>`), and the lazy body runs to the first `</style>`;
without a closer the match fails and scanning resumes one character later. -/
def stylePF : Nat → List Char → List Char
  | _, [] => []
  | 0, l => l
  | fuel+1, x :: xs =>
    if x == '<' && ciStarts stylePat xs then
      match splitAtChar '>' (xs.drop 5) with
      | some (_, afterGt) =>
        match dropThroughCI styleClosePat afterGt with
        | some rest => stylePF fuel rest
        | none => x :: stylePF fuel xs
      | none => x :: stylePF fuel xs
    else x :: stylePF fuel xs

def styleStrip (l : List Char) : List Char := stylePF l.length l

def divPat : List Char := "div".data

/-- `.replace(/<div[^>]*>/g, "\n")` (case-sensitive, opening div tags only). -/
def divPF : Nat → List Char → List Char
  | _, [] => []
  | 0, l => l
  | fuel+1, x :: xs =>
    if x == '<' && divPat.isPrefixOf xs then
      match splitAtChar '>' (xs.drop 3) with
      | some (_, afterGt) => '\n' :: divPF fuel afterGt
      | none => x :: divPF fuel xs
    else x :: divPF fuel xs

def divStrip (l : List Char) : List Char := divPF l.length l

/-- `.replace(/<[^>]+>/g, " ")`: a `<` with at least one character before the
next `>` is replaced (together with everything through that `>`) by a space;
`<>` and a `<` with no later `>` do not match. -/
def tagPF : Nat → List Char → List Char
  | _, [] => []
  | 0, l => l
  | fuel+1, x :: xs =>
    if x == '<' then
      match splitAtChar '>' xs with
      | some ([], _) => x :: tagPF fuel xs
      | some (_ :: _, afterGt) => ' ' :: tagPF fuel afterGt
      | none => x :: tagPF fuel xs
    else x :: tagPF fuel xs

def tagStrip (l : List Char) : List Char := tagPF l.length l

def ankiPat : List Char := "anki:play:".data

/-- `.replace(/\[anki:play:[^\]]+\]/g, "")`. -/
def ankiPF : Nat → List Char → List Char
  | _, [] => []
  | 0, l => l
  | fuel+1, x :: xs =>
    if x == '[' && ankiPat.isPrefixOf xs then
      match splitAtChar ']' (xs.drop 10) with
      | some ([], _) => x :: ankiPF fuel xs
      | some (_ :: _, afterRb) => ankiPF fuel afterRb
      | none => x :: ankiPF fuel xs
    else x :: ankiPF fuel xs

def ankiStrip (l : List Char) : List Char := ankiPF l.length l

/-- `.replace(pat, rep)` for a literal pattern `p :: ps` with the global flag:
leftmost occurrence replaced, scanning continues after the match. -/
def replaceSubF (p : Char) (ps rep : List Char) : Nat → List Char → List Char
  | _, [] => []
  | 0, l => l
  | fuel+1, x :: xs =>
    if (p :: ps).isPrefixOf (x :: xs) then
      rep ++ replaceSubF p ps rep fuel (xs.drop ps.length)
    else x :: replaceSubF p ps rep fuel xs

def replaceSub (p : Char) (ps rep l : List Char) : List Char :=
  replaceSubF p ps rep l.length l

/-- The whitespace set removed by `String.prototype.trim`
(ECMAScript WhiteSpace and LineTerminator code points). -/
def isWS (c : Char) : Bool :=
  c == ' ' || c == '\t' || c == '\n' || c == '\r' || c == '\x0b' || c == '\x0c' ||
  c == Char.ofNat 0xa0 || c == Char.ofNat 0x2028 || c == Char.ofNat 0x2029 ||
  c == Char.ofNat 0xfeff

def trimL (l : List Char) : List Char := l.dropWhile isWS

def trimR (l : List Char) : List Char := (l.reverse.dropWhile isWS).reverse

/-- `String.prototype.trim` on a single line. -/
def jsTrim (l : List Char) : List Char := trimR (trimL l)

/-- `.split("\n")`. -/
def splitNL : List Char → List (List Char)
  | [] => [[]]
  | c :: cs =>
    if c = '\n' then [] :: splitNL cs
    else
      match splitNL cs with
      | [] => [[c]]
      | p :: ps => (c :: p) :: ps

/-- `.join("\n")`. -/
def joinNL : List (List Char) → List Char
  | [] => []
  | [a] => a
  | a :: b :: t => a ++ '\n' :: joinNL (b :: t)

/-- `.split("\n").map(line => line.trim()).filter(line => line.length > 0).join("\n")`. -/
def lineProc (l : List Char) : List Char :=
  joinNL (((splitNL l).map jsTrim).filter (fun x => !x.isEmpty))

/-- The full `cleanWithRegex` pipeline on character lists, replacement by
replacement in source order. -/
def cleanL (l : List Char) : List Char :=
  lineProc
    (replaceSub '&' "quot;".data ['"']
      (replaceSub '&' "gt;".data ['>']
        (replaceSub '&' "lt;".data ['<']
          (replaceSub '&' "amp;".data ['&']
            (replaceSub '&' "nbsp;".data [' ']
              (ankiStrip (tagStrip (divStrip (styleStrip l)))))))))

/-- `src/index.ts` `cleanWithRegex`. -/
def cleanWithRegex (s : String) : String := ⟨cleanL s.data⟩

/-- `src/index.ts` `formatQuery`; JS `startsWith`/`slice` modelled on the
character list. -/
def formatQuery (q : String) : String :=
  if "deck".data.isPrefixOf q.data then "deck:" ++ ⟨q.data.drop 4⟩
  else if "is".data.isPrefixOf q.data then "is:" ++ ⟨q.data.drop 2⟩
  else q

structure Card where
  cardId : Int
  question : String
  answer : String
  due : Int
deriving Repr, DecidableEq

/-- A record as returned by the store's `cardsInfo` (before projection). -/
structure RawCard where
  cardId : Int
  question : String
  answer : String
  due : Int
deriving Repr, DecidableEq

structure Answer where
  cardId : Int
  ease : Int
deriving Repr, DecidableEq

/-- The note payload of `add_card` (fields object flattened: `Front`/`Back`). -/
structure AnkiNote where
  deckName : String
  modelName : String
  front : String
  back : String
deriving Repr, DecidableEq

/-- The external store client (`yanki-connect`), as a record of response
functions: the only boundary the handlers depend on. -/
structure StoreClient where
  findCards : String → List Int
  cardsInfo : List Int → List RawCard
  answerCards : List Answer → List Bool
  addNote : AnkiNote → Int

/-- One call made to the store client, for effect traces. -/
inductive StoreCall
  | findCards (query : String)
  | cardsInfo (ids : List Int)
  | answerCards (answers : List Answer)
  | addNote (note : AnkiNote)
deriving Repr, DecidableEq

/-- The per-card projection inside `findCardsAndOrder`. -/
def projectCard (r : RawCard) : Card :=
  { cardId := r.cardId, question := cleanWithRegex r.question,
    answer := cleanWithRegex r.answer, due := r.due }

def dueLE (a b : Card) : Prop := a.due ≤ b.due

instance : DecidableRel dueLE := fun a b => inferInstanceAs (Decidable (a.due ≤ b.due))

instance : IsTotal Card dueLE := ⟨fun a b => Int.le_total a.due b.due⟩

instance : IsTrans Card dueLE := ⟨fun _ _ _ h1 h2 => le_trans h1 h2⟩

/-- `.sort((a, b) => a.due - b.due)`: a stable ascending sort by `due`
(ECMAScript requires `Array.prototype.sort` to be stable). -/
def sortByDue (l : List Card) : List Card := List.insertionSort dueLE l

/-- `src/index.ts` `findCardsAndOrder`, also returning the store calls made. -/
def findCardsAndOrder (client : StoreClient) (query : String) :
    List Card × List StoreCall :=
  let ids := client.findCards (formatQuery query)
  let infos := client.cardsInfo ids
  (sortByDue (infos.map projectCard),
   [StoreCall.findCards (formatQuery query), StoreCall.cardsInfo ids])

/-- A JS number argument after `Number(...)` conversion: an integer or `NaN`.
(Non-integral values do not occur in the claims.) -/
inductive JSNum
  | int (n : Int)
  | nan
deriving Repr, DecidableEq

/-- `Array.prototype.slice(0, num)`: `ToIntegerOrInfinity` sends `NaN` to `0`;
a negative end counts from the end of the array, clamped at `0`; a positive
end is clamped at the length. -/
def jsSliceTo (l : List α) : JSNum → List α
  | JSNum.nan => l.take ((min 0 (l.length : Int)).toNat)
  | JSNum.int n =>
    if n < 0 then l.take ((max ((l.length : Int) + n) 0).toNat)
    else l.take ((min n (l.length : Int)).toNat)

/-- JS `Array.prototype.filter` with an `(element, index)` callback, keeping
the elements whose index satisfies `f`. -/
def filterIdx (f : Nat → Bool) : Nat → List α → List α
  | _, [] => []
  | i, a :: as => if f i then a :: filterIdx f (i+1) as else filterIdx f (i+1) as

/-- A tool invocation outcome; card lists are serialized with
`JSON.stringify` in the source, which is abstracted here. -/
inductive ToolOut
  | msg (text : String)
  | cardList (cards : List Card)
deriving Repr, DecidableEq

/-- The `update_cards` branch of the CallTool handler, given the store's
parallel boolean reply (`result[index]` is falsy past the end, as in JS). -/
def updateCardsLogic (answers : List Answer) (result : List Bool) :
    Except String ToolOut :=
  let successfulCards :=
    (filterIdx (fun i => result.getD i false) 0 answers).map (fun c => c.cardId)
  let failedCards := filterIdx (fun i => !result.getD i false) 0 answers
  if failedCards.length > 0 then
    Except.error ("Failed to update cards with IDs: " ++
      String.intercalate ", " ((failedCards.map (fun c => c.cardId)).map toString))
  else
    Except.ok (ToolOut.msg ("Updated cards " ++
      String.intercalate ", " (successfulCards.map toString)))

/-- The argument bag of a CallTool request (fields read by the four tools). -/
structure ToolArgs where
  answers : List Answer := []
  front : String := ""
  back : String := ""
  num : JSNum := JSNum.nan
deriving Repr, DecidableEq

/-- `src/index.ts` CallTool handler: outcome plus the store calls made, in
order. -/
def callTool (client : StoreClient) (name : String) (args : Option ToolArgs) :
    Except String ToolOut × List StoreCall :=
  match args with
  | none => (Except.error ("No arguments provided for tool: " ++ name), [])
  | some a =>
    if name = "update_cards" then
      (updateCardsLogic a.answers (client.answerCards a.answers),
       [StoreCall.answerCards a.answers])
    else if name = "add_card" then
      let note : AnkiNote :=
        { deckName := "Default", modelName := "Basic", front := a.front, back := a.back }
      let noteId := client.addNote note
      let found := client.findCards ("nid:" ++ toString noteId)
      (Except.ok (ToolOut.msg ("Created card with id " ++
          (match found.head? with
           | some i => toString i
           | none => "undefined"))),
       [StoreCall.addNote note, StoreCall.findCards ("nid:" ++ toString noteId)])
    else if name = "get_due_cards" then
      let r := findCardsAndOrder client "is:due"
      (Except.ok (ToolOut.cardList (jsSliceTo r.1 a.num)), r.2)
    else if name = "get_new_cards" then
      let r := findCardsAndOrder client "is:new"
      (Except.ok (ToolOut.cardList (jsSliceTo r.1 a.num)), r.2)
    else (Except.error "Unknown tool", [])

/-- A ListResources catalog entry.  The source's third entry carries the
misspelled key `mimiType` instead of `mimeType`, so both are modelled as
optional fields. -/
structure AnkiResource where
  uri : String
  mimeType : Option String := none
  mimiType : Option String := none
  name : String
  description : String
deriving Repr, DecidableEq

/-- `src/index.ts` ListResources handler: the literal catalog, misspelling
included. -/
def listResources : List AnkiResource :=
  [{ uri := "anki://search/deckcurrent", mimeType := some "application/json",
     name := "Current Deck", description := "Current Anki deck" },
   { uri := "anki://search/isdue", mimeType := some "application/json",
     name := "Due cards",
     description := "Cards in review and learning waiting to be studied" },
   { uri := "anki://search/isnew", mimiType := some "application/json",
     name := "New cards", description := "All unseen cards" }]

/-- One construct of the input language of C5: a (non-style) tag, a style
block, or one of the five entities. -/
inductive MarkAtom
  | tag (content : List Char)
  | styleBlock (attrs body : List Char)
  | entNbsp
  | entAmp
  | entLt
  | entGt
  | entQuot
deriving Repr, DecidableEq

def MarkAtom.render : MarkAtom → List Char
  | .tag c => '<' :: c ++ ['>']
  | .styleBlock a b => "<style".data ++ a ++ ['>'] ++ b ++ "</style>".data
  | .entNbsp => "&nbsp;".data
  | .entAmp => "&amp;".data
  | .entLt => "&lt;".data
  | .entGt => "&gt;".data
  | .entQuot => "&quot;".data

/-- Wellformedness: tag contents are nonempty, avoid `<` and `>`, and do not
themselves open a style block (style openers belong to style blocks); style
attributes avoid `<`/`>`, and style bodies avoid `<` (so they contain no tags
and no premature closer). -/
def MarkAtom.WF : MarkAtom → Prop
  | .tag c => c ≠ [] ∧ (∀ x ∈ c, x ≠ '<' ∧ x ≠ '>') ∧ ciStarts stylePat (c ++ ['>']) = false
  | .styleBlock a b => (∀ x ∈ a, x ≠ '<' ∧ x ≠ '>') ∧ (∀ x ∈ b, x ≠ '<')
  | _ => True

def renderAtoms (l : List MarkAtom) : List Char := (l.map MarkAtom.render).flatten

/-- What is left of each atom after the style-block removal pass. -/
def tokS (a : MarkAtom) : List Char :=
  match a with
  | .styleBlock _ _ => []
  | a => a.render

/-- After the div pass. -/
def tokD (a : MarkAtom) : List Char :=
  match a with
  | .styleBlock _ _ => []
  | .tag c => if divPat.isPrefixOf (c ++ ['>']) then ['\n'] else MarkAtom.render (.tag c)
  | a => a.render

/-- After the generic tag pass (and the anki pass, which is a no-op here). -/
def tokT (a : MarkAtom) : List Char :=
  match a with
  | .styleBlock _ _ => []
  | .tag c => if divPat.isPrefixOf (c ++ ['>']) then ['\n'] else [' ']
  | a => a.render

/-- After the `&nbsp;` pass. -/
def tokN (a : MarkAtom) : List Char :=
  match a with
  | .entNbsp => [' ']
  | a => tokT a

/-- After the `&amp;` pass. -/
def tokA (a : MarkAtom) : List Char :=
  match a with
  | .entAmp => ['&']
  | a => tokN a

/-- After the `&lt;` pass. -/
def tokL (a : MarkAtom) : List Char :=
  match a with
  | .entLt => ['<']
  | a => tokA a

/-- After the `&gt;` pass. -/
def tokG (a : MarkAtom) : List Char :=
  match a with
  | .entGt => ['>']
  | a => tokL a

/-- After the `&quot;` pass: the final token of each atom before line cleanup. -/
def tokQ (a : MarkAtom) : List Char :=
  match a with
  | .entQuot => ['"']
  | a => tokG a

/-- The note built by the `add_card` branch from the request arguments. -/
def addCardNote (args : ToolArgs) : AnkiNote :=
  { deckName := "Default", modelName := "Basic", front := args.front, back := args.back }

/-- The card-id list the `add_card` branch looks up for the fresh note. -/
def addCardFound (client : StoreClient) (args : ToolArgs) : List Int :=
  client.findCards ("nid:" ++ toString (client.addNote (addCardNote args)))

deriving instance DecidableEq for Except

/-- A minimal store client for concrete instantiations: no cards anywhere. -/
def sampleClient : StoreClient where
  findCards := fun _ => []
  cardsInfo := fun _ => []
  answerCards := fun a => a.map (fun _ => true)
  addNote := fun _ => 42

/-- A store client holding two due cards, for concrete instantiations. -/
def dueClient2 : StoreClient where
  findCards := fun _ => [1, 2]
  cardsInfo := fun _ =>
    [{ cardId := 1, question := "a", answer := "b", due := 1 },
     { cardId := 2, question := "c", answer := "d", due := 2 }]
  answerCards := fun a => a.map (fun _ => true)
  addNote := fun _ => 0

/-! ### Basic facts about the scanner building blocks -/

theorem splitAtChar_eq_some {c : Char} :
    ∀ {l a b : List Char}, splitAtChar c l = some (a, b) → l = a ++ c :: b ∧ c ∉ a := by
  intro l
  induction l with
  | nil => intro a b h; simp [splitAtChar] at h
  | cons x xs ih =>
    intro a b h
    by_cases hx : x = c
    · subst hx
      rw [splitAtChar, if_pos rfl] at h
      obtain ⟨ha, hb⟩ := Prod.mk.injEq .. ▸ Option.some.inj h
      subst ha; subst hb; simp
    · rw [splitAtChar, if_neg hx, Option.map_eq_some'] at h
      obtain ⟨⟨a', b'⟩, hs, he⟩ := h
      have ha : x :: a' = a := congrArg Prod.fst he
      have hb : b' = b := congrArg Prod.snd he
      subst ha; subst hb
      obtain ⟨h1, h2⟩ := ih hs
      refine ⟨by simp [h1], ?_⟩
      intro hmem
      rcases List.mem_cons.mp hmem with h | h
      · exact hx h.symm
      · exact h2 h

theorem splitAtChar_eq_none {c : Char} :
    ∀ {l : List Char}, splitAtChar c l = none → c ∉ l := by
  intro l
  induction l with
  | nil => intro _; simp
  | cons x xs ih =>
    intro h
    by_cases hx : x = c
    · rw [splitAtChar, if_pos hx] at h; exact absurd h (by simp)
    · rw [splitAtChar, if_neg hx] at h
      have hs : splitAtChar c xs = none := by
        cases hq : splitAtChar c xs with
        | none => rfl
        | some p => rw [hq] at h; simp at h
      intro hmem
      rcases List.mem_cons.mp hmem with h' | h'
      · exact hx h'.symm
      · exact ih hs h'

theorem splitAtChar_first {c : Char} :
    ∀ {a : List Char} (b : List Char), c ∉ a → splitAtChar c (a ++ c :: b) = some (a, b) := by
  intro a
  induction a with
  | nil => intro b _; simp [splitAtChar]
  | cons x a' ih =>
    intro b h
    have hx : x ≠ c := fun hc => h (by simp [hc])
    have h' : c ∉ a' := fun hc => h (by simp [hc])
    rw [List.cons_append, splitAtChar, if_neg hx, ih b h']
    rfl

theorem dropThroughCI_length {pat : List Char} :
    ∀ {l r : List Char}, dropThroughCI pat l = some r → r.length ≤ l.length := by
  intro l
  induction l with
  | nil => intro r h; simp [dropThroughCI] at h
  | cons x xs ih =>
    intro r h
    rw [dropThroughCI] at h
    by_cases hc : ciStarts pat (x :: xs) = true
    · rw [if_pos hc] at h
      have : (x :: xs).drop pat.length = r := Option.some.inj h
      have := congrArg List.length this
      simp only [List.length_drop] at this
      omega
    · rw [if_neg hc] at h
      have := ih h
      simp only [List.length_cons]
      omega

theorem dropThroughCI_suffix {pat : List Char} :
    ∀ {l r : List Char}, dropThroughCI pat l = some r → r <:+ l := by
  intro l
  induction l with
  | nil => intro r h; simp [dropThroughCI] at h
  | cons x xs ih =>
    intro r h
    rw [dropThroughCI] at h
    by_cases hc : ciStarts pat (x :: xs) = true
    · rw [if_pos hc] at h
      exact Option.some.inj h ▸ List.drop_suffix _ _
    · rw [if_neg hc] at h
      exact (ih h).trans (List.suffix_cons x xs)

theorem splitAtChar_some_len {c : Char} {l a b : List Char}
    (h : splitAtChar c l = some (a, b)) : b.length < l.length := by
  have := congrArg List.length (splitAtChar_eq_some h).1
  simp only [List.length_append, List.length_cons] at this
  omega

/-! ### Fuel irrelevance for the scanners -/

theorem stylePF_congr :
    ∀ (f g : Nat) (l : List Char), l.length ≤ f → l.length ≤ g → stylePF f l = stylePF g l := by
  intro f
  induction f with
  | zero =>
    intro g l hf _
    have : l = [] := List.length_eq_zero.mp (Nat.le_zero.mp hf)
    subst this
    cases g <;> rfl
  | succ f ih =>
    intro g l hf hg
    cases l with
    | nil => cases g <;> rfl
    | cons x xs =>
      cases g with
      | zero => simp at hg
      | succ g =>
        simp only [List.length_cons] at hf hg
        simp only [stylePF]
        by_cases hgd : (x == '<' && ciStarts stylePat xs) = true
        · rw [if_pos hgd, if_pos hgd]
          cases hsp : splitAtChar '>' (xs.drop 5) with
          | none =>
            show x :: stylePF f xs = x :: stylePF g xs
            rw [ih g xs (by omega) (by omega)]
          | some p =>
            obtain ⟨mid, afterGt⟩ := p
            have hlen : afterGt.length < (xs.drop 5).length := splitAtChar_some_len hsp
            simp only [List.length_drop] at hlen
            show (match dropThroughCI styleClosePat afterGt with
                  | some rest => stylePF f rest
                  | none => x :: stylePF f xs) =
                 (match dropThroughCI styleClosePat afterGt with
                  | some rest => stylePF g rest
                  | none => x :: stylePF g xs)
            cases hdc : dropThroughCI styleClosePat afterGt with
            | none =>
              show x :: stylePF f xs = x :: stylePF g xs
              rw [ih g xs (by omega) (by omega)]
            | some rest =>
              have hr : rest.length ≤ afterGt.length := dropThroughCI_length hdc
              show stylePF f rest = stylePF g rest
              exact ih g rest (by omega) (by omega)
        · rw [if_neg hgd, if_neg hgd, ih g xs (by omega) (by omega)]

theorem divPF_congr :
    ∀ (f g : Nat) (l : List Char), l.length ≤ f → l.length ≤ g → divPF f l = divPF g l := by
  intro f
  induction f with
  | zero =>
    intro g l hf _
    have : l = [] := List.length_eq_zero.mp (Nat.le_zero.mp hf)
    subst this
    cases g <;> rfl
  | succ f ih =>
    intro g l hf hg
    cases l with
    | nil => cases g <;> rfl
    | cons x xs =>
      cases g with
      | zero => simp at hg
      | succ g =>
        simp only [List.length_cons] at hf hg
        simp only [divPF]
        by_cases hgd : (x == '<' && divPat.isPrefixOf xs) = true
        · rw [if_pos hgd, if_pos hgd]
          cases hsp : splitAtChar '>' (xs.drop 3) with
          | none =>
            show x :: divPF f xs = x :: divPF g xs
            rw [ih g xs (by omega) (by omega)]
          | some p =>
            obtain ⟨mid, afterGt⟩ := p
            have hlen : afterGt.length < (xs.drop 3).length := splitAtChar_some_len hsp
            simp only [List.length_drop] at hlen
            show '\n' :: divPF f afterGt = '\n' :: divPF g afterGt
            rw [ih g afterGt (by omega) (by omega)]
        · rw [if_neg hgd, if_neg hgd, ih g xs (by omega) (by omega)]

theorem tagPF_congr :
    ∀ (f g : Nat) (l : List Char), l.length ≤ f → l.length ≤ g → tagPF f l = tagPF g l := by
  intro f
  induction f with
  | zero =>
    intro g l hf _
    have : l = [] := List.length_eq_zero.mp (Nat.le_zero.mp hf)
    subst this
    cases g <;> rfl
  | succ f ih =>
    intro g l hf hg
    cases l with
    | nil => cases g <;> rfl
    | cons x xs =>
      cases g with
      | zero => simp at hg
      | succ g =>
        simp only [List.length_cons] at hf hg
        simp only [tagPF]
        by_cases hgd : (x == '<') = true
        · rw [if_pos hgd, if_pos hgd]
          cases hsp : splitAtChar '>' xs with
          | none =>
            show x :: tagPF f xs = x :: tagPF g xs
            rw [ih g xs (by omega) (by omega)]
          | some p =>
            obtain ⟨mid, afterGt⟩ := p
            have hlen : afterGt.length < xs.length := splitAtChar_some_len hsp
            cases mid with
            | nil =>
              show x :: tagPF f xs = x :: tagPF g xs
              rw [ih g xs (by omega) (by omega)]
            | cons m ms =>
              show ' ' :: tagPF f afterGt = ' ' :: tagPF g afterGt
              rw [ih g afterGt (by omega) (by omega)]
        · rw [if_neg hgd, if_neg hgd, ih g xs (by omega) (by omega)]

theorem ankiPF_congr :
    ∀ (f g : Nat) (l : List Char), l.length ≤ f → l.length ≤ g → ankiPF f l = ankiPF g l := by
  intro f
  induction f with
  | zero =>
    intro g l hf _
    have : l = [] := List.length_eq_zero.mp (Nat.le_zero.mp hf)
    subst this
    cases g <;> rfl
  | succ f ih =>
    intro g l hf hg
    cases l with
    | nil => cases g <;> rfl
    | cons x xs =>
      cases g with
      | zero => simp at hg
      | succ g =>
        simp only [List.length_cons] at hf hg
        simp only [ankiPF]
        by_cases hgd : (x == '[' && ankiPat.isPrefixOf xs) = true
        · rw [if_pos hgd, if_pos hgd]
          cases hsp : splitAtChar ']' (xs.drop 10) with
          | none =>
            show x :: ankiPF f xs = x :: ankiPF g xs
            rw [ih g xs (by omega) (by omega)]
          | some p =>
            obtain ⟨mid, afterRb⟩ := p
            have hlen : afterRb.length < (xs.drop 10).length := splitAtChar_some_len hsp
            simp only [List.length_drop] at hlen
            cases mid with
            | nil =>
              show x :: ankiPF f xs = x :: ankiPF g xs
              rw [ih g xs (by omega) (by omega)]
            | cons m ms =>
              show ankiPF f afterRb = ankiPF g afterRb
              exact ih g afterRb (by omega) (by omega)
        · rw [if_neg hgd, if_neg hgd, ih g xs (by omega) (by omega)]

theorem replaceSubF_congr (p : Char) (ps rep : List Char) :
    ∀ (f g : Nat) (l : List Char), l.length ≤ f → l.length ≤ g →
      replaceSubF p ps rep f l = replaceSubF p ps rep g l := by
  intro f
  induction f with
  | zero =>
    intro g l hf _
    have : l = [] := List.length_eq_zero.mp (Nat.le_zero.mp hf)
    subst this
    cases g <;> rfl
  | succ f ih =>
    intro g l hf hg
    cases l with
    | nil => cases g <;> rfl
    | cons x xs =>
      cases g with
      | zero => simp at hg
      | succ g =>
        simp only [List.length_cons] at hf hg
        simp only [replaceSubF]
        by_cases hgd : ((p :: ps).isPrefixOf (x :: xs)) = true
        · rw [if_pos hgd, if_pos hgd]
          have : (xs.drop ps.length).length ≤ xs.length := by
            simp only [List.length_drop]; omega
          rw [ih g (xs.drop ps.length) (by omega) (by omega)]
        · rw [if_neg hgd, if_neg hgd, ih g xs (by omega) (by omega)]

/-! ### Step equations for the wrapped scanners -/

theorem styleStrip_nil : styleStrip [] = [] := rfl

theorem styleStrip_cons_ne {x : Char} (l : List Char) (hx : x ≠ '<') :
    styleStrip (x :: l) = x :: styleStrip l := by
  show stylePF (x :: l).length (x :: l) = x :: stylePF l.length l
  simp only [List.length_cons, stylePF]
  rw [if_neg (by simp [hx])]

theorem styleStrip_cons_noStyle {xs : List Char} (h : ciStarts stylePat xs = false) :
    styleStrip ('<' :: xs) = '<' :: styleStrip xs := by
  show stylePF ('<' :: xs).length ('<' :: xs) = '<' :: stylePF xs.length xs
  simp only [List.length_cons, stylePF]
  rw [if_neg (by simp [h])]

theorem styleStrip_cons_match {xs mid afterGt rest : List Char}
    (hc : ciStarts stylePat xs = true)
    (hsp : splitAtChar '>' (xs.drop 5) = some (mid, afterGt))
    (hdc : dropThroughCI styleClosePat afterGt = some rest) :
    styleStrip ('<' :: xs) = styleStrip rest := by
  have hlen : afterGt.length < (xs.drop 5).length := splitAtChar_some_len hsp
  simp only [List.length_drop] at hlen
  have hr : rest.length ≤ afterGt.length := dropThroughCI_length hdc
  show stylePF ('<' :: xs).length ('<' :: xs) = styleStrip rest
  simp only [List.length_cons, stylePF]
  rw [if_pos (by simp [hc]), hsp]
  show (match dropThroughCI styleClosePat afterGt with
        | some rest => stylePF xs.length rest
        | none => '<' :: stylePF xs.length xs) = styleStrip rest
  rw [hdc]
  show stylePF xs.length rest = stylePF rest.length rest
  exact stylePF_congr xs.length rest.length rest (by omega) (by omega)

theorem divStrip_nil : divStrip [] = [] := rfl

theorem divStrip_cons_ne {x : Char} (l : List Char) (hx : x ≠ '<') :
    divStrip (x :: l) = x :: divStrip l := by
  show divPF (x :: l).length (x :: l) = x :: divPF l.length l
  simp only [List.length_cons, divPF]
  rw [if_neg (by simp [hx])]

theorem divStrip_cons_noDiv {xs : List Char} (h : divPat.isPrefixOf xs = false) :
    divStrip ('<' :: xs) = '<' :: divStrip xs := by
  show divPF ('<' :: xs).length ('<' :: xs) = '<' :: divPF xs.length xs
  simp only [List.length_cons, divPF]
  rw [if_neg (by simp [h])]

theorem divStrip_cons_match {xs mid afterGt : List Char}
    (hc : divPat.isPrefixOf xs = true)
    (hsp : splitAtChar '>' (xs.drop 3) = some (mid, afterGt)) :
    divStrip ('<' :: xs) = '\n' :: divStrip afterGt := by
  have hlen : afterGt.length < (xs.drop 3).length := splitAtChar_some_len hsp
  simp only [List.length_drop] at hlen
  show divPF ('<' :: xs).length ('<' :: xs) = '\n' :: divStrip afterGt
  simp only [List.length_cons, divPF]
  rw [if_pos (by simp [hc]), hsp]
  show '\n' :: divPF xs.length afterGt = '\n' :: divPF afterGt.length afterGt
  rw [divPF_congr xs.length afterGt.length afterGt (by omega) (by omega)]

theorem tagStrip_nil : tagStrip [] = [] := rfl

theorem tagStrip_cons_ne {x : Char} (l : List Char) (hx : x ≠ '<') :
    tagStrip (x :: l) = x :: tagStrip l := by
  show tagPF (x :: l).length (x :: l) = x :: tagPF l.length l
  simp only [List.length_cons, tagPF]
  rw [if_neg (by simp [hx])]

theorem tagStrip_cons_match {xs afterGt : List Char} {m : Char} {ms : List Char}
    (hsp : splitAtChar '>' xs = some (m :: ms, afterGt)) :
    tagStrip ('<' :: xs) = ' ' :: tagStrip afterGt := by
  have hlen : afterGt.length < xs.length := splitAtChar_some_len hsp
  show tagPF ('<' :: xs).length ('<' :: xs) = ' ' :: tagStrip afterGt
  simp only [List.length_cons, tagPF]
  rw [if_pos (by simp), hsp]
  show ' ' :: tagPF xs.length afterGt = ' ' :: tagPF afterGt.length afterGt
  rw [tagPF_congr xs.length afterGt.length afterGt (by omega) (by omega)]

theorem ankiStrip_cons_ne {x : Char} (l : List Char) (hx : x ≠ '[') :
    ankiStrip (x :: l) = x :: ankiStrip l := by
  show ankiPF (x :: l).length (x :: l) = x :: ankiPF l.length l
  simp only [List.length_cons, ankiPF]
  rw [if_neg (by simp [hx])]

theorem replaceSub_nil (p : Char) (ps rep : List Char) : replaceSub p ps rep [] = [] := rfl

theorem replaceSub_cons_ne {p x : Char} {ps : List Char} (rep : List Char) {xs : List Char}
    (h : (p :: ps).isPrefixOf (x :: xs) = false) :
    replaceSub p ps rep (x :: xs) = x :: replaceSub p ps rep xs := by
  show replaceSubF p ps rep (x :: xs).length (x :: xs) = x :: replaceSubF p ps rep xs.length xs
  simp only [List.length_cons, replaceSubF]
  rw [if_neg (by simp [h])]

theorem replaceSub_match (p : Char) (ps rep s : List Char) :
    replaceSub p ps rep ((p :: ps) ++ s) = rep ++ replaceSub p ps rep s := by
  have hpre : (p :: ps).isPrefixOf (p :: (ps ++ s)) = true :=
    List.isPrefixOf_iff_prefix.mpr (by rw [← List.cons_append]; exact List.prefix_append _ _)
  show replaceSubF p ps rep ((p :: ps) ++ s).length ((p :: ps) ++ s) = rep ++ replaceSub p ps rep s
  rw [show ((p :: ps) ++ s) = p :: (ps ++ s) from rfl,
    show (p :: (ps ++ s)).length = (ps ++ s).length + 1 from rfl]
  show (if (p :: ps).isPrefixOf (p :: (ps ++ s)) then
          rep ++ replaceSubF p ps rep (ps ++ s).length ((ps ++ s).drop ps.length)
        else p :: replaceSubF p ps rep (ps ++ s).length (ps ++ s)) = rep ++ replaceSub p ps rep s
  rw [if_pos hpre, List.drop_left ps s]
  congr 1
  exact replaceSubF_congr p ps rep (ps ++ s).length s.length s (by simp) (by omega)

/-! ### Emit-through and identity lemmas -/

theorem styleStrip_append {t : List Char} (s : List Char) (h : '<' ∉ t) :
    styleStrip (t ++ s) = t ++ styleStrip s := by
  induction t with
  | nil => simp
  | cons x t' ih =>
    have hx : x ≠ '<' := fun hc => h (by simp [hc])
    have h' : '<' ∉ t' := fun hc => h (by simp [hc])
    rw [List.cons_append, styleStrip_cons_ne _ hx, ih h', List.cons_append]

theorem divStrip_append {t : List Char} (s : List Char) (h : '<' ∉ t) :
    divStrip (t ++ s) = t ++ divStrip s := by
  induction t with
  | nil => simp
  | cons x t' ih =>
    have hx : x ≠ '<' := fun hc => h (by simp [hc])
    have h' : '<' ∉ t' := fun hc => h (by simp [hc])
    rw [List.cons_append, divStrip_cons_ne _ hx, ih h', List.cons_append]

theorem tagStrip_append {t : List Char} (s : List Char) (h : '<' ∉ t) :
    tagStrip (t ++ s) = t ++ tagStrip s := by
  induction t with
  | nil => simp
  | cons x t' ih =>
    have hx : x ≠ '<' := fun hc => h (by simp [hc])
    have h' : '<' ∉ t' := fun hc => h (by simp [hc])
    rw [List.cons_append, tagStrip_cons_ne _ hx, ih h', List.cons_append]

theorem ankiStrip_id {l : List Char} (h : '[' ∉ l) : ankiStrip l = l := by
  induction l with
  | nil => rfl
  | cons x xs ih =>
    have hx : x ≠ '[' := fun hc => h (by simp [hc])
    have h' : '[' ∉ xs := fun hc => h (by simp [hc])
    rw [ankiStrip_cons_ne _ hx, ih h']

theorem styleStrip_id {l : List Char} (h : '<' ∉ l) : styleStrip l = l := by
  have h2 := @styleStrip_append l [] h
  rw [List.append_nil, styleStrip_nil, List.append_nil] at h2
  exact h2

theorem divStrip_id {l : List Char} (h : '<' ∉ l) : divStrip l = l := by
  have h2 := @divStrip_append l [] h
  rw [List.append_nil, divStrip_nil, List.append_nil] at h2
  exact h2

theorem tagStrip_id {l : List Char} (h : '<' ∉ l) : tagStrip l = l := by
  have h2 := @tagStrip_append l [] h
  rw [List.append_nil, tagStrip_nil, List.append_nil] at h2
  exact h2

theorem replaceSub_append_no_head {p : Char} {ps : List Char} (rep : List Char)
    {t : List Char} (s : List Char) (h : p ∉ t) :
    replaceSub p ps rep (t ++ s) = t ++ replaceSub p ps rep s := by
  induction t with
  | nil => simp
  | cons x t' ih =>
    have hx : x ≠ p := fun hc => h (by simp [hc])
    have h' : p ∉ t' := fun hc => h (by simp [hc])
    rw [List.cons_append, replaceSub_cons_ne rep (by simp [List.isPrefixOf]; intro hc; exact absurd hc.symm hx),
      ih h', List.cons_append]

theorem replaceSub_id {p : Char} {ps : List Char} (rep : List Char) {l : List Char}
    (h : p ∉ l) : replaceSub p ps rep l = l := by
  have h2 := @replaceSub_append_no_head p ps rep l [] h
  rw [List.append_nil, replaceSub_nil, List.append_nil] at h2
  exact h2

/-! ### Character-set lemmas for the scanners -/

theorem mem_stylePF : ∀ (f : Nat) (l : List Char) {c : Char}, c ∈ stylePF f l → c ∈ l := by
  intro f
  induction f with
  | zero =>
    intro l c h
    cases l with
    | nil => exact absurd (show c ∈ ([] : List Char) from h) (by simp)
    | cons x xs => exact h
  | succ f ih =>
    intro l c h
    cases l with
    | nil => exact absurd (show c ∈ ([] : List Char) from h) (by simp)
    | cons x xs =>
      simp only [stylePF] at h
      by_cases hgd : (x == '<' && ciStarts stylePat xs) = true
      · rw [if_pos hgd] at h
        cases hsp : splitAtChar '>' (xs.drop 5) with
        | none =>
          rw [hsp] at h
          have h2 : c ∈ x :: stylePF f xs := h
          rcases List.mem_cons.mp h2 with h3 | h3
          · simp [h3]
          · exact List.mem_cons_of_mem x (ih xs h3)
        | some p =>
          obtain ⟨mid, afterGt⟩ := p
          rw [hsp] at h
          have h2 : c ∈ (match dropThroughCI styleClosePat afterGt with
              | some rest => stylePF f rest
              | none => x :: stylePF f xs) := h
          cases hdc : dropThroughCI styleClosePat afterGt with
          | none =>
            rw [hdc] at h2
            have h3 : c ∈ x :: stylePF f xs := h2
            rcases List.mem_cons.mp h3 with h4 | h4
            · simp [h4]
            · exact List.mem_cons_of_mem x (ih xs h4)
          | some rest =>
            rw [hdc] at h2
            have h3 : c ∈ stylePF f rest := h2
            have h4 : c ∈ rest := ih rest h3
            have h5 : rest <:+ afterGt := dropThroughCI_suffix hdc
            have h6 : afterGt <:+ xs.drop 5 :=
              ⟨mid ++ ['>'], by rw [(splitAtChar_eq_some hsp).1]; simp⟩
            have h7 : xs.drop 5 <:+ xs := List.drop_suffix 5 xs
            exact List.mem_cons_of_mem x
              (((h5.trans h6).trans h7).sublist.subset h4)
      · rw [if_neg hgd] at h
        have h2 : c ∈ x :: stylePF f xs := h
        rcases List.mem_cons.mp h2 with h3 | h3
        · simp [h3]
        · exact List.mem_cons_of_mem x (ih xs h3)

theorem mem_divPF : ∀ (f : Nat) (l : List Char) {c : Char}, c ∈ divPF f l → c ∈ l ∨ c = '\n' := by
  intro f
  induction f with
  | zero =>
    intro l c h
    cases l with
    | nil => exact absurd (show c ∈ ([] : List Char) from h) (by simp)
    | cons x xs => exact Or.inl h
  | succ f ih =>
    intro l c h
    cases l with
    | nil => exact absurd (show c ∈ ([] : List Char) from h) (by simp)
    | cons x xs =>
      simp only [divPF] at h
      by_cases hgd : (x == '<' && divPat.isPrefixOf xs) = true
      · rw [if_pos hgd] at h
        cases hsp : splitAtChar '>' (xs.drop 3) with
        | none =>
          rw [hsp] at h
          have h2 : c ∈ x :: divPF f xs := h
          rcases List.mem_cons.mp h2 with h3 | h3
          · exact Or.inl (by simp [h3])
          · rcases ih xs h3 with h4 | h4
            · exact Or.inl (List.mem_cons_of_mem x h4)
            · exact Or.inr h4
        | some p =>
          obtain ⟨mid, afterGt⟩ := p
          rw [hsp] at h
          have h2 : c ∈ '\n' :: divPF f afterGt := h
          rcases List.mem_cons.mp h2 with h3 | h3
          · exact Or.inr h3
          · rcases ih afterGt h3 with h4 | h4
            · have h6 : afterGt <:+ xs.drop 3 :=
                ⟨mid ++ ['>'], by rw [(splitAtChar_eq_some hsp).1]; simp⟩
              have h7 : xs.drop 3 <:+ xs := List.drop_suffix 3 xs
              exact Or.inl (List.mem_cons_of_mem x ((h6.trans h7).sublist.subset h4))
            · exact Or.inr h4
      · rw [if_neg hgd] at h
        have h2 : c ∈ x :: divPF f xs := h
        rcases List.mem_cons.mp h2 with h3 | h3
        · exact Or.inl (by simp [h3])
        · rcases ih xs h3 with h4 | h4
          · exact Or.inl (List.mem_cons_of_mem x h4)
          · exact Or.inr h4

theorem mem_tagPF : ∀ (f : Nat) (l : List Char) {c : Char}, c ∈ tagPF f l → c ∈ l ∨ c = ' ' := by
  intro f
  induction f with
  | zero =>
    intro l c h
    cases l with
    | nil => exact absurd (show c ∈ ([] : List Char) from h) (by simp)
    | cons x xs => exact Or.inl h
  | succ f ih =>
    intro l c h
    cases l with
    | nil => exact absurd (show c ∈ ([] : List Char) from h) (by simp)
    | cons x xs =>
      simp only [tagPF] at h
      by_cases hgd : (x == '<') = true
      · rw [if_pos hgd] at h
        cases hsp : splitAtChar '>' xs with
        | none =>
          rw [hsp] at h
          have h2 : c ∈ x :: tagPF f xs := h
          rcases List.mem_cons.mp h2 with h3 | h3
          · exact Or.inl (by simp [h3])
          · rcases ih xs h3 with h4 | h4
            · exact Or.inl (List.mem_cons_of_mem x h4)
            · exact Or.inr h4
        | some p =>
          obtain ⟨mid, afterGt⟩ := p
          rw [hsp] at h
          cases mid with
          | nil =>
            have h2 : c ∈ x :: tagPF f xs := h
            rcases List.mem_cons.mp h2 with h3 | h3
            · exact Or.inl (by simp [h3])
            · rcases ih xs h3 with h4 | h4
              · exact Or.inl (List.mem_cons_of_mem x h4)
              · exact Or.inr h4
          | cons m ms =>
            have h2 : c ∈ ' ' :: tagPF f afterGt := h
            rcases List.mem_cons.mp h2 with h3 | h3
            · exact Or.inr h3
            · rcases ih afterGt h3 with h4 | h4
              · have h6 : afterGt <:+ xs :=
                  ⟨(m :: ms) ++ ['>'], by rw [(splitAtChar_eq_some hsp).1]; simp⟩
                exact Or.inl (List.mem_cons_of_mem x (h6.sublist.subset h4))
              · exact Or.inr h4
      · rw [if_neg hgd] at h
        have h2 : c ∈ x :: tagPF f xs := h
        rcases List.mem_cons.mp h2 with h3 | h3
        · exact Or.inl (by simp [h3])
        · rcases ih xs h3 with h4 | h4
          · exact Or.inl (List.mem_cons_of_mem x h4)
          · exact Or.inr h4

theorem mem_ankiPF : ∀ (f : Nat) (l : List Char) {c : Char}, c ∈ ankiPF f l → c ∈ l := by
  intro f
  induction f with
  | zero =>
    intro l c h
    cases l with
    | nil => exact absurd (show c ∈ ([] : List Char) from h) (by simp)
    | cons x xs => exact h
  | succ f ih =>
    intro l c h
    cases l with
    | nil => exact absurd (show c ∈ ([] : List Char) from h) (by simp)
    | cons x xs =>
      simp only [ankiPF] at h
      by_cases hgd : (x == '[' && ankiPat.isPrefixOf xs) = true
      · rw [if_pos hgd] at h
        cases hsp : splitAtChar ']' (xs.drop 10) with
        | none =>
          rw [hsp] at h
          have h2 : c ∈ x :: ankiPF f xs := h
          rcases List.mem_cons.mp h2 with h3 | h3
          · simp [h3]
          · exact List.mem_cons_of_mem x (ih xs h3)
        | some p =>
          obtain ⟨mid, afterRb⟩ := p
          rw [hsp] at h
          cases mid with
          | nil =>
            have h2 : c ∈ x :: ankiPF f xs := h
            rcases List.mem_cons.mp h2 with h3 | h3
            · simp [h3]
            · exact List.mem_cons_of_mem x (ih xs h3)
          | cons m ms =>
            have h2 : c ∈ ankiPF f afterRb := h
            have h4 : c ∈ afterRb := ih afterRb h2
            have h6 : afterRb <:+ xs.drop 10 :=
              ⟨(m :: ms) ++ [']'], by rw [(splitAtChar_eq_some hsp).1]; simp⟩
            have h7 : xs.drop 10 <:+ xs := List.drop_suffix 10 xs
            exact List.mem_cons_of_mem x ((h6.trans h7).sublist.subset h4)
      · rw [if_neg hgd] at h
        have h2 : c ∈ x :: ankiPF f xs := h
        rcases List.mem_cons.mp h2 with h3 | h3
        · simp [h3]
        · exact List.mem_cons_of_mem x (ih xs h3)

theorem mem_replaceSubF (p : Char) (ps rep : List Char) :
    ∀ (f : Nat) (l : List Char) {c : Char}, c ∈ replaceSubF p ps rep f l → c ∈ l ∨ c ∈ rep := by
  intro f
  induction f with
  | zero =>
    intro l c h
    cases l with
    | nil => exact absurd (show c ∈ ([] : List Char) from h) (by simp)
    | cons x xs => exact Or.inl h
  | succ f ih =>
    intro l c h
    cases l with
    | nil => exact absurd (show c ∈ ([] : List Char) from h) (by simp)
    | cons x xs =>
      simp only [replaceSubF] at h
      by_cases hgd : ((p :: ps).isPrefixOf (x :: xs)) = true
      · rw [if_pos hgd] at h
        rcases List.mem_append.mp h with h2 | h2
        · exact Or.inr h2
        · rcases ih (xs.drop ps.length) h2 with h3 | h3
          · exact Or.inl (List.mem_cons_of_mem x ((List.drop_suffix _ _).sublist.subset h3))
          · exact Or.inr h3
      · rw [if_neg hgd] at h
        rcases List.mem_cons.mp h with h3 | h3
        · exact Or.inl (by simp [h3])
        · rcases ih xs h3 with h4 | h4
          · exact Or.inl (List.mem_cons_of_mem x h4)
          · exact Or.inr h4

theorem mem_styleStrip {l : List Char} {c : Char} (h : c ∈ styleStrip l) : c ∈ l :=
  mem_stylePF l.length l h

theorem mem_divStrip {l : List Char} {c : Char} (h : c ∈ divStrip l) : c ∈ l ∨ c = '\n' :=
  mem_divPF l.length l h

theorem mem_tagStrip {l : List Char} {c : Char} (h : c ∈ tagStrip l) : c ∈ l ∨ c = ' ' :=
  mem_tagPF l.length l h

theorem mem_ankiStrip {l : List Char} {c : Char} (h : c ∈ ankiStrip l) : c ∈ l :=
  mem_ankiPF l.length l h

theorem mem_replaceSub {p : Char} {ps rep l : List Char} {c : Char}
    (h : c ∈ replaceSub p ps rep l) : c ∈ l ∨ c ∈ rep :=
  mem_replaceSubF p ps rep l.length l h

/-! ### Line-processing lemmas -/

theorem mem_splitNL : ∀ {l : List Char} {p : List Char}, p ∈ splitNL l → ∀ {c : Char}, c ∈ p → c ∈ l := by
  intro l
  induction l with
  | nil =>
    intro p hp c hc
    simp only [splitNL, List.mem_singleton] at hp
    subst hp
    simp at hc
  | cons x xs ih =>
    intro p hp c hc
    by_cases hx : x = '\n'
    · rw [splitNL, if_pos hx] at hp
      rcases List.mem_cons.mp hp with h | h
      · subst h; simp at hc
      · exact List.mem_cons_of_mem x (ih h hc)
    · rw [splitNL, if_neg hx] at hp
      cases hq : splitNL xs with
      | nil =>
        rw [hq] at hp
        simp only [List.mem_singleton] at hp
        subst hp
        rcases List.mem_cons.mp hc with h | h
        · simp [h]
        · simp at h
      | cons q qs =>
        rw [hq] at hp
        rcases List.mem_cons.mp hp with h | h
        · subst h
          rcases List.mem_cons.mp hc with h2 | h2
          · simp [h2]
          · exact List.mem_cons_of_mem x (ih (hq ▸ List.mem_cons_self q qs) h2)
        · exact List.mem_cons_of_mem x (ih (hq ▸ List.mem_cons_of_mem q h) hc)

theorem splitNL_no_nl : ∀ {l : List Char} {p : List Char}, p ∈ splitNL l → '\n' ∉ p := by
  intro l
  induction l with
  | nil =>
    intro p hp
    simp only [splitNL, List.mem_singleton] at hp
    subst hp
    simp
  | cons x xs ih =>
    intro p hp
    by_cases hx : x = '\n'
    · rw [splitNL, if_pos hx] at hp
      rcases List.mem_cons.mp hp with h | h
      · subst h; simp
      · exact ih h
    · rw [splitNL, if_neg hx] at hp
      cases hq : splitNL xs with
      | nil =>
        rw [hq] at hp
        simp only [List.mem_singleton] at hp
        subst hp
        intro hc
        rcases List.mem_cons.mp hc with h | h
        · exact hx h.symm
        · simp at h
      | cons q qs =>
        rw [hq] at hp
        rcases List.mem_cons.mp hp with h | h
        · subst h
          intro hc
          rcases List.mem_cons.mp hc with h2 | h2
          · exact hx h2.symm
          · exact ih (hq ▸ List.mem_cons_self q qs) h2
        · exact ih (hq ▸ List.mem_cons_of_mem q h)

theorem splitNL_of_no_nl {l : List Char} (h : '\n' ∉ l) : splitNL l = [l] := by
  induction l with
  | nil => rfl
  | cons x xs ih =>
    have hx : x ≠ '\n' := fun hc => h (by simp [hc])
    have h' : '\n' ∉ xs := fun hc => h (by simp [hc])
    rw [splitNL, if_neg hx, ih h']

theorem splitNL_append {a : List Char} (r : List Char) (h : '\n' ∉ a) :
    splitNL (a ++ '\n' :: r) = a :: splitNL r := by
  induction a with
  | nil => simp [splitNL]
  | cons x a' ih =>
    have hx : x ≠ '\n' := fun hc => h (by simp [hc])
    have h' : '\n' ∉ a' := fun hc => h (by simp [hc])
    rw [List.cons_append, splitNL, if_neg hx, ih h']

theorem mem_joinNL : ∀ {L : List (List Char)} {c : Char},
    c ∈ joinNL L → (∃ p ∈ L, c ∈ p) ∨ c = '\n' := by
  intro L
  induction L with
  | nil => intro c h; simp [joinNL] at h
  | cons a t ih =>
    intro c h
    cases t with
    | nil =>
      exact Or.inl ⟨a, by simp, h⟩
    | cons b t' =>
      rw [show joinNL (a :: b :: t') = a ++ '\n' :: joinNL (b :: t') from rfl] at h
      rcases List.mem_append.mp h with h2 | h2
      · exact Or.inl ⟨a, by simp, h2⟩
      · rcases List.mem_cons.mp h2 with h3 | h3
        · exact Or.inr h3
        · rcases ih h3 with ⟨p, hp, hc⟩ | h4
          · exact Or.inl ⟨p, List.mem_cons_of_mem a hp, hc⟩
          · exact Or.inr h4

theorem splitNL_joinNL : ∀ {L : List (List Char)},
    (∀ p ∈ L, '\n' ∉ p) → L ≠ [] → splitNL (joinNL L) = L := by
  intro L
  induction L with
  | nil => intro _ h; exact absurd rfl h
  | cons a t ih =>
    intro hnl _
    cases t with
    | nil => exact splitNL_of_no_nl (hnl a (by simp))
    | cons b t' =>
      rw [show joinNL (a :: b :: t') = a ++ '\n' :: joinNL (b :: t') from rfl,
        splitNL_append _ (hnl a (by simp)),
        ih (fun p hp => hnl p (List.mem_cons_of_mem a hp)) (by simp)]

theorem trimL_head : ∀ {l : List Char} {c : Char}, (trimL l).head? = some c → isWS c = false := by
  intro l
  induction l with
  | nil => intro c h; simp [trimL] at h
  | cons x xs ih =>
    intro c h
    by_cases hx : isWS x = true
    · rw [show trimL (x :: xs) = trimL xs from by simp [trimL, List.dropWhile_cons, hx]] at h
      exact ih h
    · rw [show trimL (x :: xs) = x :: xs from by simp [trimL, List.dropWhile_cons, hx]] at h
      have : x = c := by simpa using h
      subst this
      simpa using hx

theorem trimL_of_head {l : List Char} (h : ∀ c, l.head? = some c → isWS c = false) :
    trimL l = l := by
  cases l with
  | nil => rfl
  | cons x xs =>
    have hx : isWS x = false := h x rfl
    simp [trimL, List.dropWhile_cons, hx]

theorem trimL_idem (l : List Char) : trimL (trimL l) = trimL l :=
  trimL_of_head (fun _ hc => trimL_head hc)

theorem trimR_pre (l : List Char) : trimR l <+: l := by
  have h1 : (l.reverse.dropWhile isWS) <:+ l.reverse := List.dropWhile_suffix isWS
  have h2 : (l.reverse.dropWhile isWS).reverse <+: l.reverse.reverse :=
    List.reverse_prefix.mpr h1
  simpa using h2

theorem trimR_idem (l : List Char) : trimR (trimR l) = trimR l := by
  show ((((l.reverse.dropWhile isWS).reverse).reverse).dropWhile isWS).reverse =
    (l.reverse.dropWhile isWS).reverse
  rw [List.reverse_reverse]
  show (trimL (trimL l.reverse)).reverse = (trimL l.reverse).reverse
  rw [trimL_idem l.reverse]

theorem jsTrim_idem (l : List Char) : jsTrim (jsTrim l) = jsTrim l := by
  show trimR (trimL (trimR (trimL l))) = trimR (trimL l)
  have hmid : trimL (trimR (trimL l)) = trimR (trimL l) := by
    apply trimL_of_head
    intro c hc
    cases he : trimR (trimL l) with
    | nil => rw [he] at hc; simp at hc
    | cons y ys =>
      rw [he] at hc
      have hy : y = c := by simpa using hc
      subst hy
      obtain ⟨t, ht⟩ := trimR_pre (trimL l)
      rw [he] at ht
      exact @trimL_head l _ (by rw [← ht]; rfl)
  rw [hmid, trimR_idem]

theorem mem_jsTrim {l : List Char} {c : Char} (h : c ∈ jsTrim l) : c ∈ l := by
  have h1 : c ∈ trimL l := (trimR_pre (trimL l)).sublist.subset h
  exact (List.dropWhile_suffix isWS).sublist.subset h1

theorem mem_lineProc {l : List Char} {c : Char} (h : c ∈ lineProc l) : c ∈ l ∨ c = '\n' := by
  rcases mem_joinNL h with ⟨p, hp, hc⟩ | h2
  · have hp2 := List.mem_filter.mp hp
    obtain ⟨q, hq, hq2⟩ := List.mem_map.mp hp2.1
    subst hq2
    exact Or.inl (mem_splitNL hq (mem_jsTrim hc))
  · exact Or.inr h2

theorem lineProc_idem (l : List Char) : lineProc (lineProc l) = lineProc l := by
  cases hL : ((splitNL l).map jsTrim).filter (fun x => !x.isEmpty) with
  | nil =>
    rw [show lineProc l = joinNL (((splitNL l).map jsTrim).filter (fun x => !x.isEmpty)) from rfl,
      hL]
    rfl
  | cons a t =>
    have hL2 : ∀ p ∈ ((splitNL l).map jsTrim).filter (fun x => !x.isEmpty), '\n' ∉ p := by
      intro p hp
      have hp2 := List.mem_filter.mp hp
      obtain ⟨q, hq, hq2⟩ := List.mem_map.mp hp2.1
      subst hq2
      intro hc
      exact splitNL_no_nl hq (mem_jsTrim hc)
    have hL3 : ∀ p ∈ ((splitNL l).map jsTrim).filter (fun x => !x.isEmpty), jsTrim p = p := by
      intro p hp
      have hp2 := List.mem_filter.mp hp
      obtain ⟨q, hq, hq2⟩ := List.mem_map.mp hp2.1
      subst hq2
      exact jsTrim_idem q
    have hL4 : ∀ p ∈ ((splitNL l).map jsTrim).filter (fun x => !x.isEmpty),
        (fun x => !List.isEmpty x) p = true := by
      intro p hp
      exact (List.mem_filter.mp hp).2
    show joinNL (((splitNL (lineProc l)).map jsTrim).filter (fun x => !x.isEmpty)) = lineProc l
    rw [show lineProc l = joinNL (((splitNL l).map jsTrim).filter (fun x => !x.isEmpty)) from rfl]
    rw [splitNL_joinNL (by intro p hp; exact hL2 p hp) (by rw [hL]; simp)]
    rw [List.map_congr_left (by intro p hp; exact hL3 p hp), List.map_id']
    rw [List.filter_eq_self.mpr hL4]

/-! ### C1: idempotence of the normalizer -/

theorem cleanL_plain {l : List Char} (hlt : '<' ∉ l) (hamp : '&' ∉ l) (hlb : '[' ∉ l) :
    cleanL l = lineProc l := by
  unfold cleanL
  rw [styleStrip_id hlt, divStrip_id hlt, tagStrip_id hlt, ankiStrip_id hlb,
    replaceSub_id _ hamp, replaceSub_id _ hamp, replaceSub_id _ hamp,
    replaceSub_id _ hamp, replaceSub_id _ hamp]

theorem cleanL_idem_plain {l : List Char} (hlt : '<' ∉ l) (hamp : '&' ∉ l) (hlb : '[' ∉ l) :
    cleanL (cleanL l) = cleanL l := by
  have h1 : cleanL l = lineProc l := cleanL_plain hlt hamp hlb
  have hlt2 : '<' ∉ lineProc l := by
    intro hc
    rcases mem_lineProc hc with h | h
    · exact hlt h
    · simp at h
  have hamp2 : '&' ∉ lineProc l := by
    intro hc
    rcases mem_lineProc hc with h | h
    · exact hamp h
    · simp at h
  have hlb2 : '[' ∉ lineProc l := by
    intro hc
    rcases mem_lineProc hc with h | h
    · exact hlb h
    · simp at h
  rw [h1, cleanL_plain hlt2 hamp2 hlb2, lineProc_idem]

set_option maxHeartbeats 2000000 in
/-- C1 (counterexample): `normalize` is *not* idempotent on every input.
Entity decoding runs after tag stripping, so `normalize "&lt;b&gt;"` is
`"<b>"`, which a second normalization strips down to `""`.  This also refutes
"re-normalizing an already-normalized string is a no-op", since `"<b>"` is
itself a normalizer output. -/
theorem C1_counterexample :
    cleanWithRegex "&lt;b&gt;" = "<b>" ∧
    cleanWithRegex (cleanWithRegex "&lt;b&gt;") ≠ cleanWithRegex "&lt;b&gt;" := by
  constructor
  · decide
  · decide

/-- C1 (amended): on inputs containing none of the markup-trigger characters
`<`, `&`, `[`, `normalize` reduces to the whitespace/line cleanup, and it is
idempotent there: re-normalizing such an already-plain string only re-runs the
(idempotent) line cleanup. -/
theorem C1_normalize_idempotent_plain (s : String)
    (h : ∀ c ∈ s.data, c ≠ '<' ∧ c ≠ '&' ∧ c ≠ '[') :
    cleanWithRegex (cleanWithRegex s) = cleanWithRegex s ∧
    cleanWithRegex s = ⟨lineProc s.data⟩ := by
  have hlt : '<' ∉ s.data := fun hc => (h _ hc).1 rfl
  have hamp : '&' ∉ s.data := fun hc => (h _ hc).2.1 rfl
  have hlb : '[' ∉ s.data := fun hc => (h _ hc).2.2 rfl
  have hdef : ∀ t : String, cleanWithRegex t = ⟨cleanL t.data⟩ := fun _ => rfl
  have hmk : ∀ l : List Char, (⟨l⟩ : String).data = l := fun _ => rfl
  constructor
  · rw [hdef s, hdef, hmk]
    exact congrArg String.mk (cleanL_idem_plain hlt hamp hlb)
  · rw [hdef s]
    exact congrArg String.mk (cleanL_plain hlt hamp hlb)

set_option maxHeartbeats 2000000 in
/-- C1 witness: the amended theorem applied at a concrete already-plain input. -/
theorem C1_witness :
    (∀ c ∈ ("  a  \n\nb " : String).data, c ≠ '<' ∧ c ≠ '&' ∧ c ≠ '[') ∧
    (cleanWithRegex (cleanWithRegex "  a  \n\nb ") = cleanWithRegex "  a  \n\nb " ∧
     cleanWithRegex "  a  \n\nb " = ⟨lineProc ("  a  \n\nb " : String).data⟩) :=
  ⟨by decide, C1_normalize_idempotent_plain "  a  \n\nb " (by decide)⟩

/-! ### C7: the query formatter -/

/-- C7: `formatQuery` maps `deck`-prefixed keywords to `deck:<remainder>`,
otherwise `is`-prefixed keywords to `is:<remainder>`, and passes everything
else through unchanged; in particular `formatQuery "deckMath" = "deck:Math"`,
`formatQuery "isdue" = "is:due"`, `formatQuery "tag:x" = "tag:x"`. -/
theorem C7_formatQuery (r q : String)
    (hq1 : ¬ "deck".data.isPrefixOf q.data = true)
    (hq2 : ¬ "is".data.isPrefixOf q.data = true) :
    formatQuery ("deck" ++ r) = "deck:" ++ r ∧
    formatQuery ("is" ++ r) = "is:" ++ r ∧
    formatQuery q = q ∧
    formatQuery "deckMath" = "deck:Math" ∧
    formatQuery "isdue" = "is:due" ∧
    formatQuery "tag:x" = "tag:x" := by
  refine ⟨?_, ?_, ?_, by decide, by decide, by decide⟩
  · have hd : ("deck" ++ r).data = "deck".data ++ r.data := String.data_append _ _
    rw [formatQuery, hd, if_pos (List.isPrefixOf_iff_prefix.mpr (List.prefix_append _ _))]
    rw [show ("deck".data ++ r.data).drop 4 = r.data from List.drop_left "deck".data r.data]
  · have hd : ("is" ++ r).data = "is".data ++ r.data := String.data_append _ _
    have hnd : "deck".data.isPrefixOf ("is".data ++ r.data) = false := by
      simp [List.isPrefixOf]
    rw [formatQuery, hd, if_neg (by simp [hnd]),
      if_pos (List.isPrefixOf_iff_prefix.mpr (List.prefix_append _ _))]
    rw [show ("is".data ++ r.data).drop 2 = r.data from List.drop_left "is".data r.data]
  · rw [formatQuery, if_neg hq1, if_neg hq2]

/-- C7 witness: applied at the pass-through example. -/
theorem C7_witness : formatQuery "tag:x" = "tag:x" :=
  (C7_formatQuery "x" "tag:x" (by decide) (by decide)).2.2.1

/-! ### C4: the ListResources catalog -/

/-- C4: the catalog is the constant three-entry list with the expected URIs,
names and descriptions, but the *third* entry carries no `mimeType` — the
source spells its key `mimiType` — contradicting the handler's own doc comment
("JSON MIME type") and the other two entries, and refuting the claim that all
three are annotated with `mimeType "application/json"`. -/
theorem C4_catalog_mimiType_bug :
    listResources.map (fun r => r.uri) =
      ["anki://search/deckcurrent", "anki://search/isdue", "anki://search/isnew"] ∧
    listResources.map (fun r => r.mimeType) =
      [some "application/json", some "application/json", none] ∧
    listResources.map (fun r => r.mimiType) =
      [none, none, some "application/json"] ∧
    listResources.map (fun r => r.name) = ["Current Deck", "Due cards", "New cards"] :=
  ⟨rfl, rfl, rfl, rfl⟩

/-! ### C8: CallTool dispatch errors -/

/-- C8: a CallTool request without arguments fails with the invalid-request
error before any store call (the trace of store calls is empty), and a request
whose tool name is none of the four known tools fails with the unknown-tool
error. -/
theorem C8_callTool_dispatch (client : StoreClient) (name : String) (args : ToolArgs) :
    callTool client name none =
      (Except.error ("No arguments provided for tool: " ++ name), []) ∧
    (name ∉ (["update_cards", "add_card", "get_due_cards", "get_new_cards"] : List String) →
      callTool client name (some args) = (Except.error "Unknown tool", [])) := by
  constructor
  · rfl
  · intro h
    have h1 : ¬ name = "update_cards" := fun hc => h (by simp [hc])
    have h2 : ¬ name = "add_card" := fun hc => h (by simp [hc])
    have h3 : ¬ name = "get_due_cards" := fun hc => h (by simp [hc])
    have h4 : ¬ name = "get_new_cards" := fun hc => h (by simp [hc])
    simp only [callTool]
    rw [if_neg h1, if_neg h2, if_neg h3, if_neg h4]

/-- C8 witness: applied at a concrete unknown tool name. -/
theorem C8_witness :
    callTool sampleClient "frobnicate" (some {}) = (Except.error "Unknown tool", []) :=
  (C8_callTool_dispatch sampleClient "frobnicate" {}).2 (by decide)

/-! ### C10: NaN num degrades to the empty slice -/

theorem jsSliceTo_nan (l : List α) : jsSliceTo l JSNum.nan = [] := by
  show l.take ((min 0 (l.length : Int)).toNat) = []
  rw [min_eq_left (by exact_mod_cast Nat.zero_le l.length), Int.toNat_zero, List.take_zero]

/-- C10: when `Number(args.num)` is `NaN`, `get_due_cards`/`get_new_cards`
succeed and return the empty card list (slicing with a NaN end yields an empty
slice), rather than raising an error. -/
theorem C10_nan_num (client : StoreClient) (args : ToolArgs) (h : args.num = JSNum.nan) :
    (callTool client "get_due_cards" (some args)).1 = Except.ok (ToolOut.cardList []) ∧
    (callTool client "get_new_cards" (some args)).1 = Except.ok (ToolOut.cardList []) := by
  constructor
  · simp only [callTool]
    rw [if_pos trivial]
    show Except.ok (ToolOut.cardList
      (jsSliceTo (findCardsAndOrder client "is:due").1 args.num)) = _
    rw [h, jsSliceTo_nan]
  · simp only [callTool]
    rw [if_pos trivial]
    show Except.ok (ToolOut.cardList
      (jsSliceTo (findCardsAndOrder client "is:new").1 args.num)) = _
    rw [h, jsSliceTo_nan]

/-- C10 witness: applied at a concrete client and argument bag. -/
theorem C10_witness :
    (callTool dueClient2 "get_due_cards" (some {})).1 = Except.ok (ToolOut.cardList []) :=
  (C10_nan_num dueClient2 {} rfl).1

/-! ### C9: add_card -/

/-- C9: `add_card` creates exactly one note — deck `Default`, model `Basic`,
fields set verbatim from the arguments — then queries the store for the fresh
note's cards and reports the first id found; when the lookup comes back empty
the reported id is the string `undefined`, not an error. -/
theorem C9_add_card (client : StoreClient) (args : ToolArgs) :
    callTool client "add_card" (some args) =
      (Except.ok (ToolOut.msg ("Created card with id " ++
        (match (addCardFound client args).head? with
         | some i => toString i
         | none => "undefined"))),
       [StoreCall.addNote (addCardNote args),
        StoreCall.findCards ("nid:" ++ toString (client.addNote (addCardNote args)))]) ∧
    (addCardFound client args = [] →
      (callTool client "add_card" (some args)).1 =
        Except.ok (ToolOut.msg "Created card with id undefined")) := by
  have h1 : callTool client "add_card" (some args) =
      (Except.ok (ToolOut.msg ("Created card with id " ++
        (match (addCardFound client args).head? with
         | some i => toString i
         | none => "undefined"))),
       [StoreCall.addNote (addCardNote args),
        StoreCall.findCards ("nid:" ++ toString (client.addNote (addCardNote args)))]) := by
    simp only [callTool]
    rw [if_pos trivial]
    rfl
  refine ⟨h1, fun hf => ?_⟩
  rw [h1]
  show Except.ok (ToolOut.msg ("Created card with id " ++
    (match (addCardFound client args).head? with
     | some i => toString i
     | none => "undefined"))) = _
  rw [hf]
  rfl

/-- C9 witness: applied at a client whose lookup finds no card. -/
theorem C9_witness :
    (callTool sampleClient "add_card" (some {})).1 =
      Except.ok (ToolOut.msg "Created card with id undefined") :=
  (C9_add_card sampleClient {}).2 rfl

/-! ### C3: update_cards all-or-nothing failure -/

theorem filterIdx_succ {α : Type} (g : Nat → Bool) :
    ∀ (as : List α) (n : Nat), filterIdx g (n+1) as = filterIdx (fun i => g (i+1)) n as := by
  intro as
  induction as with
  | nil => intro n; rfl
  | cons a as ih =>
    intro n
    show (if g (n+1) then a :: filterIdx g (n+2) as else filterIdx g (n+2) as) = _
    rw [ih (n+1)]
    rfl

theorem filterIdx_zip (f : Bool → Bool) :
    ∀ (as : List Answer) (rs : List Bool), rs.length = as.length →
      filterIdx (fun i => f (rs.getD i false)) 0 as =
      ((as.zip rs).filter (fun p => f p.2)).map Prod.fst := by
  intro as
  induction as with
  | nil => intro rs _; rfl
  | cons a as ih =>
    intro rs h
    cases rs with
    | nil => simp at h
    | cons r rs' =>
      have hlen : rs'.length = as.length := by
        simp only [List.length_cons] at h
        omega
      show (if f ((r :: rs').getD 0 false) then
              a :: filterIdx (fun i => f ((r :: rs').getD i false)) 1 as
            else filterIdx (fun i => f ((r :: rs').getD i false)) 1 as) = _
      rw [filterIdx_succ]
      simp only [List.getD_cons_succ, List.getD_cons_zero]
      rw [ih rs' hlen]
      rw [List.zip_cons_cons, List.filter_cons]
      by_cases hf : f r = true
      · rw [if_pos hf, if_pos hf, List.map_cons]
      · rw [if_neg hf, if_neg (by simpa using hf)]

theorem mem_zip_of_mem_right {α β : Type} :
    ∀ {as : List α} {rs : List β} {b : β}, rs.length = as.length → b ∈ rs →
      ∃ a, (a, b) ∈ as.zip rs := by
  intro as
  induction as with
  | nil =>
    intro rs b h hb
    cases rs with
    | nil => simp at hb
    | cons r rs' => simp at h
  | cons a as ih =>
    intro rs b h hb
    cases rs with
    | nil => simp at hb
    | cons r rs' =>
      have hlen : rs'.length = as.length := by
        simp only [List.length_cons] at h
        omega
      rcases List.mem_cons.mp hb with h2 | h2
      · exact ⟨a, by simp [List.zip_cons_cons, h2]⟩
      · obtain ⟨a', ha'⟩ := ih hlen h2
        exact ⟨a', by simp [List.zip_cons_cons]; exact Or.inr ha'⟩

/-- C3: `update_cards` is all-or-nothing from the caller's view: when the
store's parallel boolean reply contains any `false`, the whole call fails with
an error enumerating exactly the card ids at the `false` positions; when every
boolean is `true`, it returns a confirmation listing all submitted card ids. -/
theorem C3_update_cards_all_or_nothing (answers : List Answer) (result : List Bool)
    (hlen : result.length = answers.length) :
    ((∃ b ∈ result, b = false) →
      updateCardsLogic answers result = Except.error
        ("Failed to update cards with IDs: " ++
          String.intercalate ", "
            ((((answers.zip result).filter (fun p => !p.2)).map
                (fun p => p.1.cardId)).map toString))) ∧
    ((∀ b ∈ result, b = true) →
      updateCardsLogic answers result = Except.ok (ToolOut.msg
        ("Updated cards " ++
          String.intercalate ", " ((answers.map (fun a => a.cardId)).map toString)))) := by
  have hfail : filterIdx (fun i => !result.getD i false) 0 answers =
      ((answers.zip result).filter (fun p => !p.2)).map Prod.fst :=
    filterIdx_zip (fun b => !b) answers result hlen
  have hsucc : filterIdx (fun i => result.getD i false) 0 answers =
      ((answers.zip result).filter (fun p => p.2)).map Prod.fst :=
    filterIdx_zip (fun b => b) answers result hlen
  constructor
  · rintro ⟨b, hb, rfl⟩
    obtain ⟨a, ha⟩ := mem_zip_of_mem_right hlen hb
    have hmem : (a, false) ∈ (answers.zip result).filter (fun p => !p.2) :=
      List.mem_filter.mpr ⟨ha, by simp⟩
    have hne : ((answers.zip result).filter (fun p => !p.2)).map Prod.fst ≠ [] :=
      List.ne_nil_of_mem (List.mem_map_of_mem Prod.fst hmem)
    show (if (filterIdx (fun i => !result.getD i false) 0 answers).length > 0 then _ else _) = _
    rw [hfail, if_pos (List.length_pos.mpr hne)]
    simp only [List.map_map]
    rfl
  · intro hall
    have hnil : (answers.zip result).filter (fun p => !p.2) = [] := by
      rw [List.filter_eq_nil_iff]
      intro p hp
      have hb : p.2 ∈ result := (List.of_mem_zip hp).2
      simp [hall p.2 hb]
    have hself : (answers.zip result).filter (fun p => p.2) = answers.zip result := by
      rw [List.filter_eq_self]
      intro p hp
      exact hall p.2 (List.of_mem_zip hp).2
    show (if (filterIdx (fun i => !result.getD i false) 0 answers).length > 0 then _ else _) = _
    rw [hfail, hnil]
    rw [if_neg (by simp)]
    rw [hsucc, hself, List.map_fst_zip answers result (by omega), List.map_map]

/-- C3 witness: the spec's example — store reply `[true, false]` for cards 1
and 2 fails naming exactly card 2. -/
theorem C3_witness :
    updateCardsLogic [⟨1, 2⟩, ⟨2, 4⟩] [true, false] =
      Except.error "Failed to update cards with IDs: 2" := by
  have h := (C3_update_cards_all_or_nothing [⟨1, 2⟩, ⟨2, 4⟩] [true, false] (by decide)).1
    ⟨false, by decide, rfl⟩
  rw [h]
  exact congrArg Except.error (by decide)

/-! ### C2: get_due_cards / get_new_cards slicing -/

theorem jsSliceTo_nonneg (l : List Card) {n : Int} (h : 0 ≤ n) :
    jsSliceTo l (JSNum.int n) = l.take n.toNat := by
  show (if n < 0 then l.take ((max ((l.length : Int) + n) 0).toNat)
        else l.take ((min n (l.length : Int)).toNat)) = l.take n.toNat
  rw [if_neg (not_lt.mpr h)]
  rcases le_or_lt n (l.length : Int) with h2 | h2
  · rw [min_eq_left h2]
  · rw [min_eq_right h2.le]
    rw [show ((l.length : Int)).toNat = l.length from Int.toNat_natCast l.length]
    rw [List.take_length, List.take_of_length_le (by omega)]

theorem jsSliceTo_neg (l : List Card) {n : Int} (h : n < 0) :
    jsSliceTo l (JSNum.int n) = l.take ((l.length : Int) + n).toNat := by
  show (if n < 0 then l.take ((max ((l.length : Int) + n) 0).toNat)
        else l.take ((min n (l.length : Int)).toNat)) = l.take ((l.length : Int) + n).toNat
  rw [if_pos h]
  rcases le_total ((l.length : Int) + n) 0 with h2 | h2
  · rw [max_eq_right h2, Int.toNat_of_nonpos h2]
    rfl
  · rw [max_eq_left h2]

/-- C2 (amended): `get_due_cards` and `get_new_cards` never error: they return
`slice(0, num)` of the due-ascending card list.  For `0 ≤ num` that is the
first `num` cards (the whole list once `num` reaches the length); `NaN` gives
the empty list; but a *negative* `num` gives the first `length + num` cards
(all but the last `|num|`, empty only at or below `-length`) — not always the
empty slice the original claim states (see the counterexample). -/
theorem C2_get_cards_slice (client : StoreClient) (args : ToolArgs) :
    (callTool client "get_due_cards" (some args) =
      (Except.ok (ToolOut.cardList (jsSliceTo (findCardsAndOrder client "is:due").1 args.num)),
       (findCardsAndOrder client "is:due").2)) ∧
    (callTool client "get_new_cards" (some args) =
      (Except.ok (ToolOut.cardList (jsSliceTo (findCardsAndOrder client "is:new").1 args.num)),
       (findCardsAndOrder client "is:new").2)) ∧
    (∀ (l : List Card) (n : Int), 0 ≤ n → jsSliceTo l (JSNum.int n) = l.take n.toNat) ∧
    (∀ (l : List Card) (n : Int), (l.length : Int) ≤ n → jsSliceTo l (JSNum.int n) = l) ∧
    (∀ (l : List Card) (n : Int), n < 0 →
      jsSliceTo l (JSNum.int n) = l.take ((l.length : Int) + n).toNat) ∧
    (∀ l : List Card, jsSliceTo l JSNum.nan = []) := by
  refine ⟨?_, ?_, fun l n h => jsSliceTo_nonneg l h, fun l n h => ?_,
    fun l n h => jsSliceTo_neg l h, fun l => jsSliceTo_nan l⟩
  · simp only [callTool, String.reduceEq, reduceIte]
  · simp only [callTool, String.reduceEq, reduceIte]
  · rw [jsSliceTo_nonneg l (by omega), List.take_of_length_le (by omega)]

/-- C2 (counterexample): with two due cards and `num = -1` the call returns
one card, not the empty slice the claim predicts for non-positive `num`. -/
theorem C2_counterexample :
    (callTool dueClient2 "get_due_cards" (some { num := JSNum.int (-1) })).1 =
      Except.ok (ToolOut.cardList [{ cardId := 1, question := "a", answer := "b", due := 1 }]) ∧
    (callTool dueClient2 "get_due_cards" (some { num := JSNum.int (-1) })).1 ≠
      Except.ok (ToolOut.cardList []) := by
  constructor
  · decide
  · decide

/-- C2 witness: the amended slicing applied at concrete inputs. -/
theorem C2_witness :
    jsSliceTo ([{ cardId := 1, question := "a", answer := "b", due := 1 }] : List Card)
      (JSNum.int 2) = [{ cardId := 1, question := "a", answer := "b", due := 1 }] := by
  have h := (C2_get_cards_slice sampleClient {}).2.2.2.1
    [{ cardId := 1, question := "a", answer := "b", due := 1 }] 2 (by decide)
  exact h

/-! ### C6: retrieval order and stability -/

theorem filter_orderedInsert (d : Int) (a : Card) :
    ∀ (l : List Card),
      (List.orderedInsert dueLE a l).filter (fun c => c.due == d) =
      if a.due = d then a :: l.filter (fun c => c.due == d)
      else l.filter (fun c => c.due == d) := by
  intro l
  induction l with
  | nil =>
    show List.filter (fun c => c.due == d) [a] = _
    by_cases had : a.due = d
    · rw [if_pos had]
      simp [List.filter_cons, had]
    · rw [if_neg had]
      simp [List.filter_cons, had]
  | cons b t ih =>
    rw [List.orderedInsert]
    by_cases hab : dueLE a b
    · rw [if_pos hab]
      by_cases had : a.due = d
      · simp [List.filter_cons, had]
      · simp [List.filter_cons, had]
    · rw [if_neg hab]
      have hb : b.due < a.due := by
        unfold dueLE at hab
        omega
      by_cases had : a.due = d
      · have hbd : (b.due == d) = false := by
          simp only [beq_eq_false_iff_ne]
          omega
        rw [List.filter_cons, hbd, if_neg (by simp), ih, if_pos had, if_pos had,
          List.filter_cons, hbd, if_neg (by simp)]
      · rw [List.filter_cons, ih, if_neg had, if_neg had, List.filter_cons]

theorem filter_sortByDue (d : Int) :
    ∀ (l : List Card),
      (sortByDue l).filter (fun c => c.due == d) = l.filter (fun c => c.due == d) := by
  intro l
  induction l with
  | nil => rfl
  | cons a t ih =>
    show (List.orderedInsert dueLE a (List.insertionSort dueLE t)).filter
        (fun c => c.due == d) = _
    rw [filter_orderedInsert, List.filter_cons]
    by_cases had : a.due = d
    · rw [if_pos had, if_pos (by simp [had])]
      rw [show List.filter (fun c => c.due == d) (List.insertionSort dueLE t) =
        t.filter (fun c => c.due == d) from ih]
    · rw [if_neg had, if_neg (by simp [had])]
      exact ih

/-- C6: `findCardsAndOrder` returns exactly the store records projected to
`{cardId, normalize(question), normalize(answer), due}`, sorted ascending by
`due`; the sort is stable (cards of equal `due` keep the order the store
returned, expressed by filtering on each due value); and when the store
returns no records the result is empty. -/
theorem C6_retrieve_sorted_stable (client : StoreClient) (q : String) :
    (findCardsAndOrder client q).1 =
      sortByDue ((client.cardsInfo (client.findCards (formatQuery q))).map projectCard) ∧
    List.Sorted dueLE (findCardsAndOrder client q).1 ∧
    ((findCardsAndOrder client q).1).Perm
      ((client.cardsInfo (client.findCards (formatQuery q))).map projectCard) ∧
    (∀ d : Int, ((findCardsAndOrder client q).1).filter (fun c => c.due == d) =
      ((client.cardsInfo (client.findCards (formatQuery q))).map projectCard).filter
        (fun c => c.due == d)) ∧
    (client.cardsInfo (client.findCards (formatQuery q)) = [] →
      (findCardsAndOrder client q).1 = []) := by
  refine ⟨rfl, ?_, ?_, ?_, ?_⟩
  · exact List.sorted_insertionSort dueLE _
  · exact List.perm_insertionSort dueLE _
  · intro d
    exact filter_sortByDue d _
  · intro h
    show sortByDue ((client.cardsInfo (client.findCards (formatQuery q))).map projectCard) = []
    rw [h]
    rfl

/-- C6 witness: applied at a client whose store returns no records. -/
theorem C6_witness : (findCardsAndOrder sampleClient "isdue").1 = [] :=
  (C6_retrieve_sorted_stable sampleClient "isdue").2.2.2.2 rfl

/-! ### C5 machinery: prefix facts over rendered atoms -/

theorem ciHead_self (c : Char) : ciHead c c = true := by
  simp [ciHead]

theorem ciStarts_self_append : ∀ (p s : List Char), ciStarts p (p ++ s) = true := by
  intro p
  induction p with
  | nil => intro s; rfl
  | cons x xs ih =>
    intro s
    show (ciHead x x && ciStarts xs (xs ++ s)) = true
    rw [ciHead_self, ih s, Bool.and_self]

theorem ciStarts_term_ext {p : List Char} (hp : ∀ x ∈ p, ciHead x '>' = false) :
    ∀ (c s : List Char), ciStarts p (c ++ '>' :: s) = ciStarts p (c ++ ['>']) := by
  induction p with
  | nil => intro c s; rfl
  | cons x xs ih =>
    intro c s
    cases c with
    | nil =>
      show (ciHead x '>' && ciStarts xs s) = (ciHead x '>' && ciStarts xs [])
      rw [hp x (by simp), Bool.false_and, Bool.false_and]
    | cons y c' =>
      show (ciHead x y && ciStarts xs (c' ++ '>' :: s)) = (ciHead x y && ciStarts xs (c' ++ ['>']))
      rw [ih (fun z hz => hp z (by simp [hz])) c' s]

theorem isPrefixOf_term_ext {p : List Char} (hp : ∀ x ∈ p, x ≠ '>') :
    ∀ (c s : List Char), p.isPrefixOf (c ++ '>' :: s) = p.isPrefixOf (c ++ ['>']) := by
  induction p with
  | nil => intro c s; simp [List.isPrefixOf]
  | cons x xs ih =>
    intro c s
    cases c with
    | nil =>
      show (x == '>' && xs.isPrefixOf s) = (x == '>' && xs.isPrefixOf [])
      rw [beq_eq_false_iff_ne.mpr (hp x (by simp)), Bool.false_and, Bool.false_and]
    | cons y c' =>
      show (x == y && xs.isPrefixOf (c' ++ '>' :: s)) = (x == y && xs.isPrefixOf (c' ++ ['>']))
      rw [ih (fun z hz => hp z (by simp [hz])) c' s]

theorem prefix_of_isPrefixOf_term {p : List Char} (hp : ∀ x ∈ p, x ≠ '>') :
    ∀ {c : List Char}, p.isPrefixOf (c ++ ['>']) = true → p <+: c := by
  induction p with
  | nil => intro c _; exact List.nil_prefix
  | cons x xs ih =>
    intro c h
    cases c with
    | nil =>
      exfalso
      have : (x == '>' && xs.isPrefixOf []) = true := h
      rcases Bool.and_eq_true_iff.mp this with ⟨h1, _⟩
      exact hp x (by simp) (by simpa using h1)
    | cons y c' =>
      have : (x == y && xs.isPrefixOf (c' ++ ['>'])) = true := h
      rcases Bool.and_eq_true_iff.mp this with ⟨h1, h2⟩
      have hxy : x = y := by simpa using h1
      exact List.cons_prefix_cons.mpr ⟨hxy, ih (fun z hz => hp z (by simp [hz])) h2⟩

theorem ciStarts_styleClose_false {x : Char} (xs : List Char) (hx : x ≠ '<') :
    ciStarts styleClosePat (x :: xs) = false := by
  rw [show styleClosePat = '<' :: "/style>".data from rfl]
  show (ciHead '<' x && ciStarts "/style>".data xs) = false
  have h1 : ciHead '<' x = false := by
    simp only [ciHead, Bool.or_eq_false_iff, Bool.and_eq_false_iff]
    constructor
    · exact beq_eq_false_iff_ne.mpr (fun hc => hx hc.symm)
    · left; decide
  rw [h1, Bool.false_and]

theorem dropThroughCI_at_close (s : List Char) :
    dropThroughCI styleClosePat (styleClosePat ++ s) = some s := by
  rw [show styleClosePat ++ s = '<' :: ("/style>".data ++ s) from rfl, dropThroughCI]
  rw [if_pos (show ciStarts styleClosePat ('<' :: ("/style>".data ++ s)) = true from
    ciStarts_self_append styleClosePat s)]
  rw [show ('<' :: ("/style>".data ++ s)) = styleClosePat ++ s from rfl, List.drop_left]

theorem dropThroughCI_body {b : List Char} (s : List Char) (hb : '<' ∉ b) :
    dropThroughCI styleClosePat (b ++ (styleClosePat ++ s)) = some s := by
  induction b with
  | nil => simpa using dropThroughCI_at_close s
  | cons x b' ih =>
    have hx : x ≠ '<' := fun hc => hb (by simp [hc])
    have hb' : '<' ∉ b' := fun hc => hb (by simp [hc])
    rw [List.cons_append, dropThroughCI,
      if_neg (by rw [ciStarts_styleClose_false _ hx]; simp), ih hb']

theorem renderAtoms_cons (a : MarkAtom) (rest : List MarkAtom) :
    renderAtoms (a :: rest) = a.render ++ renderAtoms rest := rfl

theorem replaceSub_cons_headne {p x : Char} (ps rep : List Char) (xs : List Char)
    (hx : x ≠ p) : replaceSub p ps rep (x :: xs) = x :: replaceSub p ps rep xs := by
  apply replaceSub_cons_ne
  show ((p == x) && ps.isPrefixOf xs) = false
  rw [beq_eq_false_iff_ne.mpr (fun hc => hx hc.symm), Bool.false_and]

theorem replaceSub_skip_tok {p : Char} {ps : List Char} (rep : List Char) {x : Char}
    {t S : List Char} (hx : ((p :: ps).isPrefixOf (x :: (t ++ S))) = false) (ht : p ∉ t) :
    replaceSub p ps rep ((x :: t) ++ S) = (x :: t) ++ replaceSub p ps rep S := by
  rw [List.cons_append, replaceSub_cons_ne rep hx, replaceSub_append_no_head rep S ht,
    List.cons_append]

theorem styleStrip_atoms : ∀ (atoms : List MarkAtom), (∀ a ∈ atoms, a.WF) →
    styleStrip (renderAtoms atoms) = (atoms.map tokS).flatten := by
  intro atoms
  induction atoms with
  | nil => intro _; rfl
  | cons a rest ih =>
    intro hwf
    have hR := ih (fun x hx => hwf x (List.mem_cons_of_mem a hx))
    have hwa := hwf a (List.mem_cons_self a rest)
    rw [renderAtoms_cons,
      show ((a :: rest).map tokS).flatten = tokS a ++ (rest.map tokS).flatten from rfl]
    cases a with
    | tag c =>
      obtain ⟨hc1, hc2, hc3⟩ := hwa
      have hlt : '<' ∉ c := fun hx => (hc2 '<' hx).1 rfl
      rw [show MarkAtom.render (MarkAtom.tag c) ++ renderAtoms rest =
          '<' :: (c ++ '>' :: renderAtoms rest) from by
        show ('<' :: (c ++ ['>'])) ++ renderAtoms rest = _
        rw [List.cons_append, List.append_assoc]
        rfl]
      rw [styleStrip_cons_noStyle (by
        rw [ciStarts_term_ext (by decide) c (renderAtoms rest)]
        exact hc3)]
      rw [show c ++ '>' :: renderAtoms rest = (c ++ ['>']) ++ renderAtoms rest from by
        rw [List.append_assoc]
        rfl]
      rw [styleStrip_append _ (by
        intro hx
        rcases List.mem_append.mp hx with h | h
        · exact hlt h
        · simp at h), hR]
      rfl
    | styleBlock attrs body =>
      obtain ⟨ha, hb⟩ := hwa
      have hgtA : '>' ∉ attrs := fun hx => (ha '>' hx).2 rfl
      have hltB : '<' ∉ body := fun hx => hb '<' hx rfl
      rw [show MarkAtom.render (MarkAtom.styleBlock attrs body) ++ renderAtoms rest =
          '<' :: (stylePat ++ (attrs ++ '>' :: (body ++ (styleClosePat ++ renderAtoms rest))))
          from by
        show ("<style".data ++ attrs ++ ['>'] ++ body ++ "</style>".data) ++ renderAtoms rest = _
        rw [show "<style".data = '<' :: stylePat from rfl,
          show "</style>".data = styleClosePat from rfl]
        simp [List.append_assoc]]
      have hdrop : (stylePat ++ (attrs ++ '>' :: (body ++ (styleClosePat ++ renderAtoms rest)))).drop 5 =
          attrs ++ '>' :: (body ++ (styleClosePat ++ renderAtoms rest)) := by
        rw [show (5 : Nat) = stylePat.length from rfl]
        exact List.drop_left _ _
      have hsp : splitAtChar '>'
          ((stylePat ++ (attrs ++ '>' :: (body ++ (styleClosePat ++ renderAtoms rest)))).drop 5) =
          some (attrs, body ++ (styleClosePat ++ renderAtoms rest)) := by
        rw [hdrop]
        exact splitAtChar_first _ hgtA
      have hdc : dropThroughCI styleClosePat (body ++ (styleClosePat ++ renderAtoms rest)) =
          some (renderAtoms rest) := dropThroughCI_body _ hltB
      rw [styleStrip_cons_match (ciStarts_self_append stylePat _) hsp hdc, hR]
      rfl
    | entNbsp =>
      rw [styleStrip_append _ (by decide), hR]
      rfl
    | entAmp =>
      rw [styleStrip_append _ (by decide), hR]
      rfl
    | entLt =>
      rw [styleStrip_append _ (by decide), hR]
      rfl
    | entGt =>
      rw [styleStrip_append _ (by decide), hR]
      rfl
    | entQuot =>
      rw [styleStrip_append _ (by decide), hR]
      rfl

theorem divStrip_toks : ∀ (atoms : List MarkAtom), (∀ a ∈ atoms, a.WF) →
    divStrip ((atoms.map tokS).flatten) = (atoms.map tokD).flatten := by
  intro atoms
  induction atoms with
  | nil => intro _; rfl
  | cons a rest ih =>
    intro hwf
    have hR := ih (fun x hx => hwf x (List.mem_cons_of_mem a hx))
    have hwa := hwf a (List.mem_cons_self a rest)
    rw [show ((a :: rest).map tokS).flatten = tokS a ++ (rest.map tokS).flatten from rfl,
      show ((a :: rest).map tokD).flatten = tokD a ++ (rest.map tokD).flatten from rfl]
    cases a with
    | tag c =>
      obtain ⟨hc1, hc2, hc3⟩ := hwa
      have hlt : '<' ∉ c := fun hx => (hc2 '<' hx).1 rfl
      rw [show tokS (MarkAtom.tag c) ++ (rest.map tokS).flatten =
          '<' :: (c ++ '>' :: (rest.map tokS).flatten) from by
        show ('<' :: (c ++ ['>'])) ++ (rest.map tokS).flatten = _
        rw [List.cons_append, List.append_assoc]
        rfl]
      by_cases hdiv : divPat.isPrefixOf (c ++ ['>']) = true
      · obtain ⟨c2, rfl⟩ := prefix_of_isPrefixOf_term (by decide) hdiv
        have hgt2 : '>' ∉ c2 := fun hx =>
          (hc2 '>' (List.mem_append.mpr (Or.inr hx))).2 rfl
        have hc : divPat.isPrefixOf ((divPat ++ c2) ++ '>' :: (rest.map tokS).flatten) = true := by
          rw [isPrefixOf_term_ext (by decide)]
          exact hdiv
        have hsp : splitAtChar '>' (((divPat ++ c2) ++ '>' :: (rest.map tokS).flatten).drop 3) =
            some (c2, (rest.map tokS).flatten) := by
          rw [List.append_assoc, show (3 : Nat) = divPat.length from rfl, List.drop_left]
          exact splitAtChar_first _ hgt2
        rw [divStrip_cons_match hc hsp, hR,
          show tokD (MarkAtom.tag (divPat ++ c2)) = ['\n'] from by
            show (if divPat.isPrefixOf ((divPat ++ c2) ++ ['>']) then ['\n']
                  else MarkAtom.render (MarkAtom.tag (divPat ++ c2))) = ['\n']
            rw [if_pos hdiv]]
        rfl
      · have hdivF : divPat.isPrefixOf (c ++ ['>']) = false :=
          Bool.not_eq_true _ ▸ eq_false_of_ne_true hdiv
        have hcF : divPat.isPrefixOf (c ++ '>' :: (rest.map tokS).flatten) = false := by
          rw [isPrefixOf_term_ext (by decide)]
          exact hdivF
        rw [divStrip_cons_noDiv hcF,
          show c ++ '>' :: (rest.map tokS).flatten =
            (c ++ ['>']) ++ (rest.map tokS).flatten from by
          rw [List.append_assoc]
          rfl]
        rw [divStrip_append _ (by
          intro hx
          rcases List.mem_append.mp hx with h | h
          · exact hlt h
          · simp at h), hR,
          show tokD (MarkAtom.tag c) = MarkAtom.render (MarkAtom.tag c) from by
            show (if divPat.isPrefixOf (c ++ ['>']) then ['\n']
                  else MarkAtom.render (MarkAtom.tag c)) = _
            rw [if_neg hdiv]]
        rfl
    | styleBlock attrs body =>
      rw [show tokS (MarkAtom.styleBlock attrs body) = [] from rfl,
        show tokD (MarkAtom.styleBlock attrs body) = [] from rfl,
        List.nil_append, List.nil_append, hR]
    | entNbsp =>
      rw [divStrip_append _ (by decide), hR]
      rfl
    | entAmp =>
      rw [divStrip_append _ (by decide), hR]
      rfl
    | entLt =>
      rw [divStrip_append _ (by decide), hR]
      rfl
    | entGt =>
      rw [divStrip_append _ (by decide), hR]
      rfl
    | entQuot =>
      rw [divStrip_append _ (by decide), hR]
      rfl

theorem tagStrip_toks : ∀ (atoms : List MarkAtom), (∀ a ∈ atoms, a.WF) →
    tagStrip ((atoms.map tokD).flatten) = (atoms.map tokT).flatten := by
  intro atoms
  induction atoms with
  | nil => intro _; rfl
  | cons a rest ih =>
    intro hwf
    have hR := ih (fun x hx => hwf x (List.mem_cons_of_mem a hx))
    have hwa := hwf a (List.mem_cons_self a rest)
    rw [show ((a :: rest).map tokD).flatten = tokD a ++ (rest.map tokD).flatten from rfl,
      show ((a :: rest).map tokT).flatten = tokT a ++ (rest.map tokT).flatten from rfl]
    cases a with
    | tag c =>
      obtain ⟨hc1, hc2, hc3⟩ := hwa
      have hgt : '>' ∉ c := fun hx => (hc2 '>' hx).2 rfl
      by_cases hdiv : divPat.isPrefixOf (c ++ ['>']) = true
      · rw [show tokD (MarkAtom.tag c) = ['\n'] from by
            show (if divPat.isPrefixOf (c ++ ['>']) then ['\n']
                  else MarkAtom.render (MarkAtom.tag c)) = ['\n']
            rw [if_pos hdiv],
          show tokT (MarkAtom.tag c) = ['\n'] from by
            show (if divPat.isPrefixOf (c ++ ['>']) then ['\n'] else [' ']) = ['\n']
            rw [if_pos hdiv]]
        rw [show (['\n'] : List Char) ++ (rest.map tokD).flatten =
          '\n' :: (rest.map tokD).flatten from rfl]
        rw [tagStrip_cons_ne _ (by decide), hR]
        rfl
      · rw [show tokD (MarkAtom.tag c) = MarkAtom.render (MarkAtom.tag c) from by
            show (if divPat.isPrefixOf (c ++ ['>']) then ['\n']
                  else MarkAtom.render (MarkAtom.tag c)) = _
            rw [if_neg hdiv],
          show tokT (MarkAtom.tag c) = [' '] from by
            show (if divPat.isPrefixOf (c ++ ['>']) then ['\n'] else [' ']) = [' ']
            rw [if_neg hdiv]]
        rw [show MarkAtom.render (MarkAtom.tag c) ++ (rest.map tokD).flatten =
            '<' :: (c ++ '>' :: (rest.map tokD).flatten) from by
          show ('<' :: (c ++ ['>'])) ++ (rest.map tokD).flatten = _
          rw [List.cons_append, List.append_assoc]
          rfl]
        cases c with
        | nil => exact absurd rfl hc1
        | cons m ms =>
          rw [tagStrip_cons_match (splitAtChar_first _ hgt), hR]
          rfl
    | styleBlock attrs body =>
      rw [show tokD (MarkAtom.styleBlock attrs body) = [] from rfl,
        show tokT (MarkAtom.styleBlock attrs body) = [] from rfl,
        List.nil_append, List.nil_append, hR]
    | entNbsp =>
      rw [tagStrip_append _ (by decide), hR]
      rfl
    | entAmp =>
      rw [tagStrip_append _ (by decide), hR]
      rfl
    | entLt =>
      rw [tagStrip_append _ (by decide), hR]
      rfl
    | entGt =>
      rw [tagStrip_append _ (by decide), hR]
      rfl
    | entQuot =>
      rw [tagStrip_append _ (by decide), hR]
      rfl

theorem lb_not_mem_tokT (a : MarkAtom) : '[' ∉ tokT a := by
  cases a with
  | tag c =>
    show '[' ∉ (if divPat.isPrefixOf (c ++ ['>']) then ['\n'] else [' '])
    by_cases h : divPat.isPrefixOf (c ++ ['>']) = true
    · rw [if_pos h]; decide
    · rw [if_neg h]; decide
  | styleBlock attrs body => simp [tokT]
  | entNbsp => decide
  | entAmp => decide
  | entLt => decide
  | entGt => decide
  | entQuot => decide

theorem ankiStrip_toks (atoms : List MarkAtom) :
    ankiStrip ((atoms.map tokT).flatten) = (atoms.map tokT).flatten := by
  apply ankiStrip_id
  intro h
  rcases List.mem_flatten.mp h with ⟨t, ht, hct⟩
  obtain ⟨a, _, rfl⟩ := List.mem_map.mp ht
  exact lb_not_mem_tokT a hct

theorem pass_single_char {p : Char} (ps rep : List Char) {x : Char} (S : List Char)
    (hx : x ≠ p) : replaceSub p ps rep ([x] ++ S) = [x] ++ replaceSub p ps rep S := by
  rw [show ([x] ++ S) = x :: S from rfl, replaceSub_cons_headne ps rep S hx]
  rfl

theorem passN_tok (a : MarkAtom) (S : List Char) :
    replaceSub '&' "nbsp;".data [' '] (tokT a ++ S) =
      tokN a ++ replaceSub '&' "nbsp;".data [' '] S := by
  cases a with
  | tag c =>
    show replaceSub '&' "nbsp;".data [' ']
        ((if divPat.isPrefixOf (c ++ ['>']) then ['\n'] else [' ']) ++ S) =
      (if divPat.isPrefixOf (c ++ ['>']) then ['\n'] else [' ']) ++
        replaceSub '&' "nbsp;".data [' '] S
    by_cases h : divPat.isPrefixOf (c ++ ['>']) = true
    · rw [if_pos h]
      exact pass_single_char _ _ S (by decide)
    · rw [if_neg h]
      exact pass_single_char _ _ S (by decide)
  | styleBlock attrs body => rfl
  | entNbsp =>
    show replaceSub '&' "nbsp;".data [' '] (('&' :: "nbsp;".data) ++ S) =
      [' '] ++ replaceSub '&' "nbsp;".data [' '] S
    exact replaceSub_match '&' "nbsp;".data [' '] S
  | entAmp =>
    show replaceSub '&' "nbsp;".data [' '] (('&' :: "amp;".data) ++ S) =
      ('&' :: "amp;".data) ++ replaceSub '&' "nbsp;".data [' '] S
    exact replaceSub_skip_tok [' '] (by simp [List.isPrefixOf]) (by decide)
  | entLt =>
    show replaceSub '&' "nbsp;".data [' '] (('&' :: "lt;".data) ++ S) =
      ('&' :: "lt;".data) ++ replaceSub '&' "nbsp;".data [' '] S
    exact replaceSub_skip_tok [' '] (by simp [List.isPrefixOf]) (by decide)
  | entGt =>
    show replaceSub '&' "nbsp;".data [' '] (('&' :: "gt;".data) ++ S) =
      ('&' :: "gt;".data) ++ replaceSub '&' "nbsp;".data [' '] S
    exact replaceSub_skip_tok [' '] (by simp [List.isPrefixOf]) (by decide)
  | entQuot =>
    show replaceSub '&' "nbsp;".data [' '] (('&' :: "quot;".data) ++ S) =
      ('&' :: "quot;".data) ++ replaceSub '&' "nbsp;".data [' '] S
    exact replaceSub_skip_tok [' '] (by simp [List.isPrefixOf]) (by decide)

theorem entPassN (atoms : List MarkAtom) :
    replaceSub '&' "nbsp;".data [' '] ((atoms.map tokT).flatten) = (atoms.map tokN).flatten := by
  induction atoms with
  | nil => rfl
  | cons a rest ih =>
    rw [show ((a :: rest).map tokT).flatten = tokT a ++ (rest.map tokT).flatten from rfl,
      show ((a :: rest).map tokN).flatten = tokN a ++ (rest.map tokN).flatten from rfl,
      passN_tok, ih]

theorem passA_tok (a : MarkAtom) (S : List Char) :
    replaceSub '&' "amp;".data ['&'] (tokN a ++ S) =
      tokA a ++ replaceSub '&' "amp;".data ['&'] S := by
  cases a with
  | tag c =>
    show replaceSub '&' "amp;".data ['&']
        ((if divPat.isPrefixOf (c ++ ['>']) then ['\n'] else [' ']) ++ S) =
      (if divPat.isPrefixOf (c ++ ['>']) then ['\n'] else [' ']) ++
        replaceSub '&' "amp;".data ['&'] S
    by_cases h : divPat.isPrefixOf (c ++ ['>']) = true
    · rw [if_pos h]
      exact pass_single_char _ _ S (by decide)
    · rw [if_neg h]
      exact pass_single_char _ _ S (by decide)
  | styleBlock attrs body => rfl
  | entNbsp => exact pass_single_char _ _ S (by decide)
  | entAmp =>
    show replaceSub '&' "amp;".data ['&'] (('&' :: "amp;".data) ++ S) =
      ['&'] ++ replaceSub '&' "amp;".data ['&'] S
    exact replaceSub_match '&' "amp;".data ['&'] S
  | entLt =>
    show replaceSub '&' "amp;".data ['&'] (('&' :: "lt;".data) ++ S) =
      ('&' :: "lt;".data) ++ replaceSub '&' "amp;".data ['&'] S
    exact replaceSub_skip_tok ['&'] (by simp [List.isPrefixOf]) (by decide)
  | entGt =>
    show replaceSub '&' "amp;".data ['&'] (('&' :: "gt;".data) ++ S) =
      ('&' :: "gt;".data) ++ replaceSub '&' "amp;".data ['&'] S
    exact replaceSub_skip_tok ['&'] (by simp [List.isPrefixOf]) (by decide)
  | entQuot =>
    show replaceSub '&' "amp;".data ['&'] (('&' :: "quot;".data) ++ S) =
      ('&' :: "quot;".data) ++ replaceSub '&' "amp;".data ['&'] S
    exact replaceSub_skip_tok ['&'] (by simp [List.isPrefixOf]) (by decide)

theorem entPassA (atoms : List MarkAtom) :
    replaceSub '&' "amp;".data ['&'] ((atoms.map tokN).flatten) = (atoms.map tokA).flatten := by
  induction atoms with
  | nil => rfl
  | cons a rest ih =>
    rw [show ((a :: rest).map tokN).flatten = tokN a ++ (rest.map tokN).flatten from rfl,
      show ((a :: rest).map tokA).flatten = tokA a ++ (rest.map tokA).flatten from rfl,
      passA_tok, ih]

theorem tokA_head (a : MarkAtom) (c : Char) (cs : List Char) (h : tokA a = c :: cs) :
    c = ' ' ∨ c = '\n' ∨ c = '&' := by
  cases a with
  | tag c' =>
    have h2 : (if divPat.isPrefixOf (c' ++ ['>']) then ['\n'] else [' ']) = c :: cs := h
    by_cases hd : divPat.isPrefixOf (c' ++ ['>']) = true
    · rw [if_pos hd] at h2
      injection h2 with h3 _
      exact Or.inr (Or.inl h3.symm)
    · rw [if_neg hd] at h2
      injection h2 with h3 _
      exact Or.inl h3.symm
  | styleBlock attrs body => exact absurd h (by simp [tokA, tokN, tokT])
  | entNbsp =>
    have h2 : [' '] = c :: cs := h
    injection h2 with h3 _
    exact Or.inl h3.symm
  | entAmp =>
    have h2 : ['&'] = c :: cs := h
    injection h2 with h3 _
    exact Or.inr (Or.inr h3.symm)
  | entLt =>
    have h2 : '&' :: "lt;".data = c :: cs := h
    injection h2 with h3 _
    exact Or.inr (Or.inr h3.symm)
  | entGt =>
    have h2 : '&' :: "gt;".data = c :: cs := h
    injection h2 with h3 _
    exact Or.inr (Or.inr h3.symm)
  | entQuot =>
    have h2 : '&' :: "quot;".data = c :: cs := h
    injection h2 with h3 _
    exact Or.inr (Or.inr h3.symm)

theorem tokL_head (a : MarkAtom) (c : Char) (cs : List Char) (h : tokL a = c :: cs) :
    c = ' ' ∨ c = '\n' ∨ c = '&' ∨ c = '<' := by
  cases a with
  | entLt =>
    have h2 : ['<'] = c :: cs := h
    injection h2 with h3 _
    exact Or.inr (Or.inr (Or.inr h3.symm))
  | tag c' =>
    rcases tokA_head (MarkAtom.tag c') c cs h with h3 | h3 | h3
    · exact Or.inl h3
    · exact Or.inr (Or.inl h3)
    · exact Or.inr (Or.inr (Or.inl h3))
  | styleBlock attrs body =>
    rcases tokA_head (MarkAtom.styleBlock attrs body) c cs h with h3 | h3 | h3
    · exact Or.inl h3
    · exact Or.inr (Or.inl h3)
    · exact Or.inr (Or.inr (Or.inl h3))
  | entNbsp =>
    rcases tokA_head MarkAtom.entNbsp c cs h with h3 | h3 | h3
    · exact Or.inl h3
    · exact Or.inr (Or.inl h3)
    · exact Or.inr (Or.inr (Or.inl h3))
  | entAmp =>
    rcases tokA_head MarkAtom.entAmp c cs h with h3 | h3 | h3
    · exact Or.inl h3
    · exact Or.inr (Or.inl h3)
    · exact Or.inr (Or.inr (Or.inl h3))
  | entGt =>
    rcases tokA_head MarkAtom.entGt c cs h with h3 | h3 | h3
    · exact Or.inl h3
    · exact Or.inr (Or.inl h3)
    · exact Or.inr (Or.inr (Or.inl h3))
  | entQuot =>
    rcases tokA_head MarkAtom.entQuot c cs h with h3 | h3 | h3
    · exact Or.inl h3
    · exact Or.inr (Or.inl h3)
    · exact Or.inr (Or.inr (Or.inl h3))

theorem tokG_head (a : MarkAtom) (c : Char) (cs : List Char) (h : tokG a = c :: cs) :
    c = ' ' ∨ c = '\n' ∨ c = '&' ∨ c = '<' ∨ c = '>' := by
  cases a with
  | entGt =>
    have h2 : ['>'] = c :: cs := h
    injection h2 with h3 _
    exact Or.inr (Or.inr (Or.inr (Or.inr h3.symm)))
  | tag c' =>
    rcases tokL_head (MarkAtom.tag c') c cs h with h3 | h3 | h3 | h3
    · exact Or.inl h3
    · exact Or.inr (Or.inl h3)
    · exact Or.inr (Or.inr (Or.inl h3))
    · exact Or.inr (Or.inr (Or.inr (Or.inl h3)))
  | styleBlock attrs body =>
    rcases tokL_head (MarkAtom.styleBlock attrs body) c cs h with h3 | h3 | h3 | h3
    · exact Or.inl h3
    · exact Or.inr (Or.inl h3)
    · exact Or.inr (Or.inr (Or.inl h3))
    · exact Or.inr (Or.inr (Or.inr (Or.inl h3)))
  | entNbsp =>
    rcases tokL_head MarkAtom.entNbsp c cs h with h3 | h3 | h3 | h3
    · exact Or.inl h3
    · exact Or.inr (Or.inl h3)
    · exact Or.inr (Or.inr (Or.inl h3))
    · exact Or.inr (Or.inr (Or.inr (Or.inl h3)))
  | entAmp =>
    rcases tokL_head MarkAtom.entAmp c cs h with h3 | h3 | h3 | h3
    · exact Or.inl h3
    · exact Or.inr (Or.inl h3)
    · exact Or.inr (Or.inr (Or.inl h3))
    · exact Or.inr (Or.inr (Or.inr (Or.inl h3)))
  | entLt =>
    rcases tokL_head MarkAtom.entLt c cs h with h3 | h3 | h3 | h3
    · exact Or.inl h3
    · exact Or.inr (Or.inl h3)
    · exact Or.inr (Or.inr (Or.inl h3))
    · exact Or.inr (Or.inr (Or.inr (Or.inl h3)))
  | entQuot =>
    rcases tokL_head MarkAtom.entQuot c cs h with h3 | h3 | h3 | h3
    · exact Or.inl h3
    · exact Or.inr (Or.inl h3)
    · exact Or.inr (Or.inr (Or.inl h3))
    · exact Or.inr (Or.inr (Or.inr (Or.inl h3)))

theorem flatten_head {tok : MarkAtom → List Char} {P : Char → Prop}
    (htok : ∀ (a : MarkAtom) (c : Char) (cs : List Char), tok a = c :: cs → P c) :
    ∀ (l : List MarkAtom) (c : Char) (s : List Char), (l.map tok).flatten = c :: s → P c := by
  intro l
  induction l with
  | nil => intro c s h; simp at h
  | cons a t ih =>
    intro c s h
    rw [show ((a :: t).map tok).flatten = tok a ++ (t.map tok).flatten from rfl] at h
    cases hta : tok a with
    | nil =>
      rw [hta, List.nil_append] at h
      exact ih c s h
    | cons x xs =>
      rw [hta, List.cons_append] at h
      injection h with h1 _
      subst h1
      exact htok a x xs hta

theorem passL_tok (a : MarkAtom) (S : List Char)
    (hS : ∀ c s, S = c :: s → (c = ' ' ∨ c = '\n' ∨ c = '&')) :
    replaceSub '&' "lt;".data ['<'] (tokA a ++ S) =
      tokL a ++ replaceSub '&' "lt;".data ['<'] S := by
  cases a with
  | tag c =>
    show replaceSub '&' "lt;".data ['<']
        ((if divPat.isPrefixOf (c ++ ['>']) then ['\n'] else [' ']) ++ S) =
      (if divPat.isPrefixOf (c ++ ['>']) then ['\n'] else [' ']) ++
        replaceSub '&' "lt;".data ['<'] S
    by_cases h : divPat.isPrefixOf (c ++ ['>']) = true
    · rw [if_pos h]
      exact pass_single_char _ _ S (by decide)
    · rw [if_neg h]
      exact pass_single_char _ _ S (by decide)
  | styleBlock attrs body => rfl
  | entNbsp => exact pass_single_char _ _ S (by decide)
  | entAmp =>
    have hpre : ("lt;".data).isPrefixOf S = false := by
      cases S with
      | nil => rfl
      | cons c s =>
        rcases hS c s rfl with rfl | rfl | rfl
        · simp [List.isPrefixOf]
        · simp [List.isPrefixOf]
        · simp [List.isPrefixOf]
    show replaceSub '&' "lt;".data ['<'] ('&' :: S) =
      '&' :: replaceSub '&' "lt;".data ['<'] S
    rw [replaceSub_cons_ne ['<'] (by
      show (('&' == '&') && ("lt;".data.isPrefixOf S)) = false
      rw [hpre, Bool.and_false])]
  | entLt =>
    show replaceSub '&' "lt;".data ['<'] (('&' :: "lt;".data) ++ S) =
      ['<'] ++ replaceSub '&' "lt;".data ['<'] S
    exact replaceSub_match '&' "lt;".data ['<'] S
  | entGt =>
    show replaceSub '&' "lt;".data ['<'] (('&' :: "gt;".data) ++ S) =
      ('&' :: "gt;".data) ++ replaceSub '&' "lt;".data ['<'] S
    exact replaceSub_skip_tok ['<'] (by simp [List.isPrefixOf]) (by decide)
  | entQuot =>
    show replaceSub '&' "lt;".data ['<'] (('&' :: "quot;".data) ++ S) =
      ('&' :: "quot;".data) ++ replaceSub '&' "lt;".data ['<'] S
    exact replaceSub_skip_tok ['<'] (by simp [List.isPrefixOf]) (by decide)

theorem entPassL (atoms : List MarkAtom) :
    replaceSub '&' "lt;".data ['<'] ((atoms.map tokA).flatten) = (atoms.map tokL).flatten := by
  induction atoms with
  | nil => rfl
  | cons a rest ih =>
    rw [show ((a :: rest).map tokA).flatten = tokA a ++ (rest.map tokA).flatten from rfl,
      show ((a :: rest).map tokL).flatten = tokL a ++ (rest.map tokL).flatten from rfl,
      passL_tok a _ (fun c s h => flatten_head tokA_head rest c s h), ih]

theorem passG_tok (a : MarkAtom) (S : List Char)
    (hS : ∀ c s, S = c :: s → (c = ' ' ∨ c = '\n' ∨ c = '&' ∨ c = '<')) :
    replaceSub '&' "gt;".data ['>'] (tokL a ++ S) =
      tokG a ++ replaceSub '&' "gt;".data ['>'] S := by
  cases a with
  | tag c =>
    show replaceSub '&' "gt;".data ['>']
        ((if divPat.isPrefixOf (c ++ ['>']) then ['\n'] else [' ']) ++ S) =
      (if divPat.isPrefixOf (c ++ ['>']) then ['\n'] else [' ']) ++
        replaceSub '&' "gt;".data ['>'] S
    by_cases h : divPat.isPrefixOf (c ++ ['>']) = true
    · rw [if_pos h]
      exact pass_single_char _ _ S (by decide)
    · rw [if_neg h]
      exact pass_single_char _ _ S (by decide)
  | styleBlock attrs body => rfl
  | entNbsp => exact pass_single_char _ _ S (by decide)
  | entAmp =>
    have hpre : ("gt;".data).isPrefixOf S = false := by
      cases S with
      | nil => rfl
      | cons c s =>
        rcases hS c s rfl with rfl | rfl | rfl | rfl
        · simp [List.isPrefixOf]
        · simp [List.isPrefixOf]
        · simp [List.isPrefixOf]
        · simp [List.isPrefixOf]
    show replaceSub '&' "gt;".data ['>'] ('&' :: S) =
      '&' :: replaceSub '&' "gt;".data ['>'] S
    rw [replaceSub_cons_ne ['>'] (by
      show (('&' == '&') && ("gt;".data.isPrefixOf S)) = false
      rw [hpre, Bool.and_false])]
  | entLt => exact pass_single_char _ _ S (by decide)
  | entGt =>
    show replaceSub '&' "gt;".data ['>'] (('&' :: "gt;".data) ++ S) =
      ['>'] ++ replaceSub '&' "gt;".data ['>'] S
    exact replaceSub_match '&' "gt;".data ['>'] S
  | entQuot =>
    show replaceSub '&' "gt;".data ['>'] (('&' :: "quot;".data) ++ S) =
      ('&' :: "quot;".data) ++ replaceSub '&' "gt;".data ['>'] S
    exact replaceSub_skip_tok ['>'] (by simp [List.isPrefixOf]) (by decide)

theorem entPassG (atoms : List MarkAtom) :
    replaceSub '&' "gt;".data ['>'] ((atoms.map tokL).flatten) = (atoms.map tokG).flatten := by
  induction atoms with
  | nil => rfl
  | cons a rest ih =>
    rw [show ((a :: rest).map tokL).flatten = tokL a ++ (rest.map tokL).flatten from rfl,
      show ((a :: rest).map tokG).flatten = tokG a ++ (rest.map tokG).flatten from rfl,
      passG_tok a _ (fun c s h => flatten_head tokL_head rest c s h), ih]

theorem passQ_tok (a : MarkAtom) (S : List Char)
    (hS : ∀ c s, S = c :: s → (c = ' ' ∨ c = '\n' ∨ c = '&' ∨ c = '<' ∨ c = '>')) :
    replaceSub '&' "quot;".data ['"'] (tokG a ++ S) =
      tokQ a ++ replaceSub '&' "quot;".data ['"'] S := by
  cases a with
  | tag c =>
    show replaceSub '&' "quot;".data ['"']
        ((if divPat.isPrefixOf (c ++ ['>']) then ['\n'] else [' ']) ++ S) =
      (if divPat.isPrefixOf (c ++ ['>']) then ['\n'] else [' ']) ++
        replaceSub '&' "quot;".data ['"'] S
    by_cases h : divPat.isPrefixOf (c ++ ['>']) = true
    · rw [if_pos h]
      exact pass_single_char _ _ S (by decide)
    · rw [if_neg h]
      exact pass_single_char _ _ S (by decide)
  | styleBlock attrs body => rfl
  | entNbsp => exact pass_single_char _ _ S (by decide)
  | entAmp =>
    have hpre : ("quot;".data).isPrefixOf S = false := by
      cases S with
      | nil => rfl
      | cons c s =>
        rcases hS c s rfl with rfl | rfl | rfl | rfl | rfl
        · simp [List.isPrefixOf]
        · simp [List.isPrefixOf]
        · simp [List.isPrefixOf]
        · simp [List.isPrefixOf]
        · simp [List.isPrefixOf]
    show replaceSub '&' "quot;".data ['"'] ('&' :: S) =
      '&' :: replaceSub '&' "quot;".data ['"'] S
    rw [replaceSub_cons_ne ['"'] (by
      show (('&' == '&') && ("quot;".data.isPrefixOf S)) = false
      rw [hpre, Bool.and_false])]
  | entLt => exact pass_single_char _ _ S (by decide)
  | entGt => exact pass_single_char _ _ S (by decide)
  | entQuot =>
    show replaceSub '&' "quot;".data ['"'] (('&' :: "quot;".data) ++ S) =
      ['"'] ++ replaceSub '&' "quot;".data ['"'] S
    exact replaceSub_match '&' "quot;".data ['"'] S

theorem entPassQ (atoms : List MarkAtom) :
    replaceSub '&' "quot;".data ['"'] ((atoms.map tokG).flatten) = (atoms.map tokQ).flatten := by
  induction atoms with
  | nil => rfl
  | cons a rest ih =>
    rw [show ((a :: rest).map tokG).flatten = tokG a ++ (rest.map tokG).flatten from rfl,
      show ((a :: rest).map tokQ).flatten = tokQ a ++ (rest.map tokQ).flatten from rfl,
      passQ_tok a _ (fun c s h => flatten_head tokG_head rest c s h), ih]

theorem cleanL_atoms (atoms : List MarkAtom) (hwf : ∀ a ∈ atoms, a.WF) :
    cleanL (renderAtoms atoms) = lineProc ((atoms.map tokQ).flatten) := by
  unfold cleanL
  rw [styleStrip_atoms atoms hwf, divStrip_toks atoms hwf, tagStrip_toks atoms hwf,
    ankiStrip_toks atoms, entPassN, entPassA, entPassL, entPassG, entPassQ]

theorem mem_tokQ (a : MarkAtom) (c : Char) (h : c ∈ tokQ a) :
    c = ' ' ∨ c = '\n' ∨ c = '&' ∨ c = '<' ∨ c = '>' ∨ c = '"' := by
  cases a with
  | tag c' =>
    have h2 : c ∈ (if divPat.isPrefixOf (c' ++ ['>']) then ['\n'] else [' ']) := h
    by_cases hd : divPat.isPrefixOf (c' ++ ['>']) = true
    · rw [if_pos hd] at h2
      exact Or.inr (Or.inl (by simpa using h2))
    · rw [if_neg hd] at h2
      exact Or.inl (by simpa using h2)
  | styleBlock attrs body => exact absurd (show c ∈ ([] : List Char) from h) (by simp)
  | entNbsp => exact Or.inl (by simpa using show c ∈ [' '] from h)
  | entAmp => exact Or.inr (Or.inr (Or.inl (by simpa using show c ∈ ['&'] from h)))
  | entLt => exact Or.inr (Or.inr (Or.inr (Or.inl (by simpa using show c ∈ ['<'] from h))))
  | entGt =>
    exact Or.inr (Or.inr (Or.inr (Or.inr (Or.inl (by simpa using show c ∈ ['>'] from h)))))
  | entQuot =>
    exact Or.inr (Or.inr (Or.inr (Or.inr (Or.inr (by simpa using show c ∈ ['"'] from h)))))

theorem mem_tokQ_lt (a : MarkAtom) (h : '<' ∈ tokQ a) : a = MarkAtom.entLt := by
  cases a with
  | entLt => rfl
  | tag c' =>
    exfalso
    have h2 : '<' ∈ (if divPat.isPrefixOf (c' ++ ['>']) then ['\n'] else [' ']) := h
    by_cases hd : divPat.isPrefixOf (c' ++ ['>']) = true
    · rw [if_pos hd] at h2
      simp at h2
    · rw [if_neg hd] at h2
      simp at h2
  | styleBlock attrs body => exact absurd (show '<' ∈ ([] : List Char) from h) (by simp)
  | entNbsp => exact absurd (show '<' ∈ [' '] from h) (by decide)
  | entAmp => exact absurd (show '<' ∈ ['&'] from h) (by decide)
  | entGt => exact absurd (show '<' ∈ ['>'] from h) (by decide)
  | entQuot => exact absurd (show '<' ∈ ['"'] from h) (by decide)

/-- C5 (counterexample): the entity atom `&lt;` alone is a wellformed input
built only from the claim's constructs, yet the normalized output is the
single character `<` — the claim's "the output contains no `<`" is false. -/
theorem C5_counterexample :
    MarkAtom.WF MarkAtom.entLt ∧ cleanL (renderAtoms [MarkAtom.entLt]) = ['<'] :=
  ⟨trivial, by decide⟩

/-- C5 (amended): for every input built only from wellformed tags, style
blocks and the five entities, the normalized output contains no occurrence of
any of the five entity substrings; and it contains no `<` provided no `&lt;`
entity occurs in the input (decoding `&lt;` necessarily puts a literal `<`
into the output, which is the only correction to the original claim). -/
theorem C5_no_markup_residue (atoms : List MarkAtom) (hwf : ∀ a ∈ atoms, a.WF) :
    (¬ "&nbsp;".data <:+: cleanL (renderAtoms atoms)) ∧
    (¬ "&amp;".data <:+: cleanL (renderAtoms atoms)) ∧
    (¬ "&lt;".data <:+: cleanL (renderAtoms atoms)) ∧
    (¬ "&gt;".data <:+: cleanL (renderAtoms atoms)) ∧
    (¬ "&quot;".data <:+: cleanL (renderAtoms atoms)) ∧
    (MarkAtom.entLt ∉ atoms → '<' ∉ cleanL (renderAtoms atoms)) := by
  have hchar : ∀ c ∈ cleanL (renderAtoms atoms),
      c = ' ' ∨ c = '\n' ∨ c = '&' ∨ c = '<' ∨ c = '>' ∨ c = '"' := by
    rw [cleanL_atoms atoms hwf]
    intro c hc
    rcases mem_lineProc hc with h | h
    · rcases List.mem_flatten.mp h with ⟨t, ht, hct⟩
      obtain ⟨a, _, rfl⟩ := List.mem_map.mp ht
      exact mem_tokQ a c hct
    · exact Or.inr (Or.inl h)
  refine ⟨?_, ?_, ?_, ?_, ?_, ?_⟩
  · intro hinf
    have hn : 'n' ∈ cleanL (renderAtoms atoms) :=
      hinf.sublist.subset (show 'n' ∈ "&nbsp;".data by decide)
    rcases hchar 'n' hn with h | h | h | h | h | h <;> exact absurd h (by decide)
  · intro hinf
    have hn : 'a' ∈ cleanL (renderAtoms atoms) :=
      hinf.sublist.subset (show 'a' ∈ "&amp;".data by decide)
    rcases hchar 'a' hn with h | h | h | h | h | h <;> exact absurd h (by decide)
  · intro hinf
    have hn : 'l' ∈ cleanL (renderAtoms atoms) :=
      hinf.sublist.subset (show 'l' ∈ "&lt;".data by decide)
    rcases hchar 'l' hn with h | h | h | h | h | h <;> exact absurd h (by decide)
  · intro hinf
    have hn : 'g' ∈ cleanL (renderAtoms atoms) :=
      hinf.sublist.subset (show 'g' ∈ "&gt;".data by decide)
    rcases hchar 'g' hn with h | h | h | h | h | h <;> exact absurd h (by decide)
  · intro hinf
    have hn : 'q' ∈ cleanL (renderAtoms atoms) :=
      hinf.sublist.subset (show 'q' ∈ "&quot;".data by decide)
    rcases hchar 'q' hn with h | h | h | h | h | h <;> exact absurd h (by decide)
  · intro hnl hin
    rw [cleanL_atoms atoms hwf] at hin
    rcases mem_lineProc hin with h | h
    · rcases List.mem_flatten.mp h with ⟨t, ht, hct⟩
      obtain ⟨a, ha, rfl⟩ := List.mem_map.mp ht
      exact hnl (mem_tokQ_lt a hct ▸ ha)
    · exact absurd h (by decide)

/-- C5 witness: the amended theorem applied at a concrete wellformed input
(one tag and one `&amp;` entity). -/
theorem C5_witness :
    (∀ a ∈ [MarkAtom.tag ['b'], MarkAtom.entAmp], MarkAtom.WF a) ∧
    '<' ∉ cleanL (renderAtoms [MarkAtom.tag ['b'], MarkAtom.entAmp]) := by
  have hwf : ∀ a ∈ [MarkAtom.tag ['b'], MarkAtom.entAmp], MarkAtom.WF a := by
    intro a ha
    rcases List.mem_cons.mp ha with rfl | ha2
    · exact ⟨by simp, by decide, by decide⟩
    · rcases List.mem_cons.mp ha2 with rfl | ha3
      · trivial
      · simp at ha3
  exact ⟨hwf, (C5_no_markup_residue _ hwf).2.2.2.2.2 (by decide)⟩
